import Mathlib

/-!
Verification of the Markdown documentation scraper (`src/main.py`).

The program walks a directory tree of Markdown files, extracts per-file
front-matter metadata (`get_file_header`, `get_dir_header`), and recursively
assembles an ordered list of temporary fragment files (`iterate_directory`)
which is then handed to external converters.

This file gives a shallow embedding of that code:
* Python strings are Lean `String`s; most character-level operations are
  modelled on the underlying `List Char`.
* The directory tree is an inductive value `FSEntry` (the program only ever
  reads the tree).
* Temporary files created by `tempfile.NamedTemporaryFile` are modelled by a
  counter-based store `TmpState`; a "path" is the `Nat` id of the created file.
* Fallible operations (Python exceptions: `int()` on a non-numeric string,
  opening a directory as a file) are modelled with `Option`, where `none`
  means the run aborts with an uncaught exception.
-/

/-! ## Python string primitives -/

/-- Python `str.strip()` on a character list (leading and trailing whitespace
removed).  Python also strips `\x0b`/`\x0c`, which `Char.isWhitespace` does
not; no input considered here contains those characters. -/
def pyStrip (l : List Char) : List Char :=
  ((l.dropWhile Char.isWhitespace).reverse.dropWhile Char.isWhitespace).reverse

/-- Python `str.lstrip()` on a character list. -/
def pyLstrip (l : List Char) : List Char :=
  l.dropWhile Char.isWhitespace

/-- Python's substring test `pat in s`. -/
def hasSub (pat l : List Char) : Bool :=
  l.tails.any (fun t => pat.isPrefixOf t)

/-- Python truthiness of an optional string: `None` and `""` are falsy. -/
def pyTruthy : Option String → Bool
  | none => false
  | some s => s ≠ ""

/-- Python `x or dflt` for an optional string `x` (falsy values replaced). -/
def pyOr (x : Option String) (dflt : String) : String :=
  match x with
  | none => dflt
  | some s => if s = "" then dflt else s

/-- Python slicing `s[-3:]`: the last three characters (or all of `s` when it
is shorter than three characters, matching Python's clamping). -/
def pyLast3 (s : String) : List Char :=
  s.data.drop (s.data.length - 3)

/-- Value of a list of decimal digits. -/
def digitsVal (l : List Char) : Option Nat :=
  if l ≠ [] ∧ l.all Char.isDigit then
    some (l.foldl (fun a c => a * 10 + (c.toNat - 48)) 0)
  else none

/-- Python `int(s)` on a string: surrounding whitespace is ignored, an
optional sign is followed by decimal digits; anything else raises
`ValueError` (`none`).  Underscore digit separators accepted by Python are
not modelled; no input considered here contains them. -/
def pyIntParse (s : String) : Option Int :=
  match pyStrip s.data with
  | '-' :: ds => (digitsVal ds).map (fun n => -(n : Int))
  | '+' :: ds => (digitsVal ds).map (fun n => (n : Int))
  | ds => (digitsVal ds).map (fun n => (n : Int))

/-! ## Constants (src/main.py lines 14-16) -/

def SECTION_SEPARATOR : String := "\n\n---\n\n"

def INDEX_FILENAME : String := "_index.md"

def MD_EXT : String := ".md"

/-! ## `get_file_header` (src/main.py lines 19-37) -/

/-- Split a text into its `\n`-separated lines (`"a\nb"` gives `["a", "b"]`,
`""` gives `[""]`).  This is how the successive results of `readline` relate
to the whole file text: `readline` keeps the `\n` terminators, but every line
is stripped before use, so the terminators are immaterial, and the final `""`
produced here for a text ending in `\n` matches no marker and is inert. -/
def splitLines : List Char → List (List Char)
  | [] => [[]]
  | c :: rest =>
    if c = '\n' then [] :: splitLines rest
    else
      match splitLines rest with
      | l :: ls => (c :: l) :: ls
      | [] => [[c]]

/-- One iteration of the `while` loop body of `get_file_header`
(src/main.py lines 28-34) on the state `(title, weight, desc)`.
The source strips `line` once more before slicing (`line.strip()[6:]`);
since `line` is already stripped this second `strip` is the identity and
is not repeated here. -/
def headerStep (line : List Char) (t w d : Option String) :
    Option String × Option String × Option String :=
  let l := pyStrip line
  if hasSub "title:".data l then
    (some (String.mk (pyLstrip (l.drop 6))), w, d)
  else if hasSub "weight:".data l then
    (t, some (String.mk (pyLstrip (l.drop 7))), d)
  else if hasSub "description:".data l then
    (t, w, some (String.mk (pyLstrip (l.drop 12))))
  else (t, w, d)

/-- The `while` loop of `get_file_header` (src/main.py lines 27-36): process
lines in order, breaking as soon as `title`, `weight` and `desc` are all
truthy; returns `(weight, title, desc)` as in line 37. -/
def headerLoop : List (List Char) → Option String → Option String → Option String →
    Option String × Option String × Option String
  | [], t, w, d => (w, t, d)
  | line :: rest, t, w, d =>
    let s := headerStep line t w d
    if pyTruthy s.1 ∧ pyTruthy s.2.1 ∧ pyTruthy s.2.2 then (s.2.1, s.1, s.2.2)
    else headerLoop rest s.1 s.2.1 s.2.2

/-- `get_file_header` (src/main.py lines 19-37) on the text of a file.
Returns `(weight, title, description)`. -/
def get_file_header (content : String) :
    Option String × Option String × Option String :=
  headerLoop (splitLines content.data) none none none

/-! ## The directory tree -/

/-- A snapshot of the source tree walked by the program.  The program only
ever reads this tree, so it is a pure value; `dir_path.iterdir()` yields the
`children` list in its stored order ("original directory-listing order"). -/
inductive FSEntry : Type where
  | file (name : String) (content : String)
  | dir (name : String) (children : List FSEntry)

/-- `path.name` of a child entry. -/
def FSEntry.fname : FSEntry → String
  | .file n _ => n
  | .dir n _ => n

/-- `child.is_dir()`. -/
def FSEntry.isDir : FSEntry → Bool
  | .file _ _ => false
  | .dir _ _ => true

/-- `str(dir_path / name)`: `pathlib` joins path components with `/`. -/
def childPath (dirPath name : String) : String :=
  dirPath ++ "/" ++ name

/-! ## `get_dir_header` (src/main.py lines 40-50) -/

/-- `get_dir_header` on the child list of a directory: return the file header
of the first child named `_index.md`, or `(None, None, None)` when there is
none.  The source calls `get_file_header` on the first child whose *name*
matches, without checking that it is a regular file; when that child is a
subdirectory, `md_file_path.open` raises `IsADirectoryError`, modelled as
`none`. -/
def get_dir_header : List FSEntry → Option (Option String × Option String × Option String)
  | [] => some (none, none, none)
  | .file n c :: rest =>
    if n = INDEX_FILENAME then some (get_file_header c) else get_dir_header rest
  | .dir n _ :: rest =>
    if n = INDEX_FILENAME then none else get_dir_header rest

/-! ## Child classification (src/main.py lines 65-77) -/

/-- One entry of the `toc` list of `iterate_directory` (src/main.py line 77):
the tuple `(weight, title, description, child)` for a leaf Markdown file,
with the child's name and content. -/
structure TocEntry where
  weight : Option String
  title : Option String
  descr : Option String
  name : String
  content : String
deriving DecidableEq

/-- One entry of the `subdirs` list of `iterate_directory` (src/main.py
line 72): the tuple `(weight, title, description, child)` for a
subdirectory. -/
structure SubEntry where
  weight : Option String
  title : Option String
  descr : Option String
  child : FSEntry

/-- The `for child in dir_path.iterdir()` classification loop of
`iterate_directory` (src/main.py lines 69-77), with the accumulated `toc`,
`subdirs`, `this_title`, `this_description`.  A `get_dir_header` failure
aborts the run (`none`). -/
def classifyLoop : List FSEntry → List TocEntry → List SubEntry →
    Option String → Option String →
    Option (List TocEntry × List SubEntry × Option String × Option String)
  | [], toc, subs, tT, tD => some (toc, subs, tT, tD)
  | child :: rest, toc, subs, tT, tD =>
    match child with
    | .dir _ ch =>
      match get_dir_header ch with
      | none => none
      | some (w, t, d) =>
        classifyLoop rest toc (subs ++ [⟨w, t, d, child⟩]) tT tD
    | .file n c =>
      if n = INDEX_FILENAME then
        let h := get_file_header c
        classifyLoop rest toc subs h.2.1 h.2.2
      else if pyLast3 n = MD_EXT.data then
        let h := get_file_header c
        classifyLoop rest (toc ++ [⟨h.1, h.2.1, h.2.2, n, c⟩]) subs tT tD
      else
        classifyLoop rest toc subs tT tD

/-- Classification of a directory's children, starting from the empty
accumulators of src/main.py lines 65-68. -/
def classifyChildren (children : List FSEntry) :
    Option (List TocEntry × List SubEntry × Option String × Option String) :=
  classifyLoop children [] [] none none

/-! ## Sorting (src/main.py lines 92-93) -/

/-- The sort key `int(x[0] or 0)`: a missing (`None`) or empty weight string
is replaced by the integer `0` by `or`; a non-empty weight string is parsed
by `int`, whose `ValueError` aborts the run. -/
def pySortKey (w : Option String) : Option Int :=
  match w with
  | none => some 0
  | some s => if s = "" then some 0 else pyIntParse s

/-- `list.sort(key=lambda x: int(x[0] or 0))` (src/main.py lines 92-93):
every element's key is computed first (a failing `int` aborts the whole
sort), then the list is sorted in ascending key order.  CPython's sort is
stable; all stable ascending sorts of a list coincide, so the sort is
realised by `List.insertionSort`, which inserts earlier elements before
later elements of equal key. -/
def pySortByWeight (wOf : α → Option String) (l : List α) : Option (List α) :=
  match l.mapM (fun x => (pySortKey (wOf x)).map (fun k => (k, x))) with
  | none => none
  | some keyed =>
    some ((keyed.insertionSort (fun a b => a.1 ≤ b.1)).map Prod.snd)

/-! ## Markdown link rewriting (src/main.py lines 103-116)

The pre-render variant copies each leaf document, replacing every match of
the regular expression `\[([^\]]+?)\]\(\.\./(.+?)\)` by
`[\g<1>]({dir_path}/\g<2>)`.  The functions below implement exactly the
leftmost, non-overlapping matching of `re.sub` for this one pattern:
at a match position the engine takes the (non-empty) run of non-`]`
characters up to the first `]`, requires the literal `](../`, and then the
lazy group `(.+?)\)` takes the shortest non-empty run of non-newline
characters followed by `)`. -/

/-- Split at the first occurrence of `ch`: `some (before, after)`, `none`
when `ch` does not occur. -/
def splitAtFirst (ch : Char) : List Char → Option (List Char × List Char)
  | [] => none
  | x :: xs =>
    if x = ch then some ([], xs)
    else
      match splitAtFirst ch xs with
      | some (a, b) => some (x :: a, b)
      | none => none

/-- Continuation of the lazy group `(.+?)\)` after its first character: the
shortest (possibly empty) run of characters up to a closing `)`, failing on
a newline (`.` does not match `\n`). -/
def grabAfterFirst : List Char → Option (List Char × List Char)
  | [] => none
  | x :: xs =>
    if x = ')' then some ([], xs)
    else if x = '\n' then none
    else
      match grabAfterFirst xs with
      | some (a, b) => some (x :: a, b)
      | none => none

/-- The lazy group `(.+?)\)`: at least one non-newline character, then the
shortest continuation up to `)`. -/
def grabTarget : List Char → Option (List Char × List Char)
  | [] => none
  | x :: xs =>
    if x = '\n' then none
    else
      match grabAfterFirst xs with
      | some (a, b) => some (x :: a, b)
      | none => none

theorem splitAtFirst_sound {ch : Char} :
    ∀ {s a b : List Char}, splitAtFirst ch s = some (a, b) → s = a ++ ch :: b := by
  intro s
  induction s with
  | nil => intro a b h; simp [splitAtFirst] at h
  | cons x xs ih =>
    intro a b h
    by_cases hx : x = ch
    · simp [splitAtFirst, hx] at h
      simp [hx, ← h.1, ← h.2]
    · simp only [splitAtFirst, if_neg hx] at h
      cases hs : splitAtFirst ch xs with
      | none => rw [hs] at h; exact absurd h (by simp)
      | some p =>
        rw [hs] at h
        obtain ⟨a2, b2⟩ := p
        simp at h
        rw [← h.1, ← h.2]
        simpa using ih hs

theorem grabAfterFirst_sound :
    ∀ {s a b : List Char}, grabAfterFirst s = some (a, b) → s = a ++ ')' :: b := by
  intro s
  induction s with
  | nil => intro a b h; simp [grabAfterFirst] at h
  | cons x xs ih =>
    intro a b h
    by_cases hx : x = ')'
    · simp [grabAfterFirst, hx] at h
      simp [hx, ← h.1, ← h.2]
    · by_cases hn : x = '\n'
      · simp [grabAfterFirst, hx, hn] at h
      · simp only [grabAfterFirst, if_neg hx, if_neg hn] at h
        cases hs : grabAfterFirst xs with
        | none => rw [hs] at h; exact absurd h (by simp)
        | some p =>
          rw [hs] at h
          obtain ⟨a2, b2⟩ := p
          simp at h
          rw [← h.1, ← h.2]
          simpa using ih hs

theorem grabTarget_sound {s a b : List Char}
    (h : grabTarget s = some (a, b)) : s = a ++ ')' :: b := by
  cases s with
  | nil => simp [grabTarget] at h
  | cons x xs =>
    by_cases hn : x = '\n'
    · simp [grabTarget, hn] at h
    · simp only [grabTarget, if_neg hn] at h
      cases hs : grabAfterFirst xs with
      | none => rw [hs] at h; exact absurd h (by simp)
      | some p =>
        rw [hs] at h
        obtain ⟨a2, b2⟩ := p
        simp at h
        rw [← h.1, ← h.2]
        simpa using grabAfterFirst_sound hs

/-- After the label and its closing `]` of a candidate match: expects the
literal `(../` and then the lazy group `(.+?)\)`. -/
def expectTarget (label : List Char) :
    List Char → Option (List Char × List Char × List Char)
  | a :: b :: c :: d :: s3 =>
    if a = '(' ∧ b = '.' ∧ c = '.' ∧ d = '/' then
      match grabTarget s3 with
      | none => none
      | some (g2, rem) => some (label, g2, rem)
    else none
  | _ => none

/-- Attempt to match `\[([^\]]+?)\]\(\.\./(.+?)\)` at the start of `s`;
on success returns the two groups and the remainder of `s` after the
match. -/
def tryMatch (s : List Char) : Option (List Char × List Char × List Char) :=
  match s with
  | [] => none
  | c :: s1 =>
    if c = '[' then
      match splitAtFirst ']' s1 with
      | none => none
      | some (label, s2) =>
        if label = [] then none else expectTarget label s2
    else none

theorem expectTarget_sound {label s2 lab g2 rem : List Char}
    (h : expectTarget label s2 = some (lab, g2, rem)) :
    s2 = '(' :: '.' :: '.' :: '/' :: g2 ++ ')' :: rem ∧ lab = label := by
  match s2 with
  | [] => simp [expectTarget] at h
  | [a] => simp [expectTarget] at h
  | [a, b] => simp [expectTarget] at h
  | [a, b, c] => simp [expectTarget] at h
  | a :: b :: c :: d :: s3 =>
    by_cases habcd : a = '(' ∧ b = '.' ∧ c = '.' ∧ d = '/'
    · obtain ⟨ha, hb, hc, hd⟩ := habcd
      subst ha hb hc hd
      cases hg : grabTarget s3 with
      | none => simp [expectTarget, hg] at h
      | some q =>
        obtain ⟨ta, tb⟩ := q
        simp [expectTarget, hg] at h
        obtain ⟨h1, h2, h3⟩ := h
        subst h1 h2 h3
        simp [grabTarget_sound hg]
    · simp [expectTarget, if_neg habcd] at h

theorem tryMatch_sound {s label g2 rem : List Char}
    (h : tryMatch s = some (label, g2, rem)) :
    s = '[' :: label ++ ']' :: '(' :: '.' :: '.' :: '/' :: g2 ++ ')' :: rem
      ∧ label ≠ [] := by
  cases s with
  | nil => simp [tryMatch] at h
  | cons c s1 =>
    by_cases hc : c = '['
    · subst hc
      cases hsp : splitAtFirst ']' s1 with
      | none => simp [tryMatch, hsp] at h
      | some p =>
        obtain ⟨lab, s2⟩ := p
        by_cases hlab : lab = []
        · simp [tryMatch, hsp, hlab] at h
        · simp [tryMatch, hsp, hlab] at h
          obtain ⟨hs2, hlabel⟩ := expectTarget_sound h
          subst hlabel
          refine ⟨?_, hlab⟩
          rw [splitAtFirst_sound hsp, hs2]
          simp
    · simp [tryMatch, hc] at h

theorem tryMatch_rem_length {s label g2 rem : List Char}
    (h : tryMatch s = some (label, g2, rem)) : rem.length < s.length := by
  have hs := (tryMatch_sound h).1
  subst hs
  simp
  omega

theorem splitAtFirst_complete {ch : Char} :
    ∀ {a : List Char}, ch ∉ a → ∀ b, splitAtFirst ch (a ++ ch :: b) = some (a, b) := by
  intro a
  induction a with
  | nil => intro _ b; simp [splitAtFirst]
  | cons x xs ih =>
    intro hx b
    have hxch : ¬x = ch := fun hh => hx (by simp [hh])
    have htail : ch ∉ xs := fun hh => hx (by simp [hh])
    simp [splitAtFirst, hxch, ih htail b]

theorem grabAfterFirst_complete :
    ∀ {a : List Char}, ')' ∉ a → '\n' ∉ a → ∀ b,
      grabAfterFirst (a ++ ')' :: b) = some (a, b) := by
  intro a
  induction a with
  | nil => intro _ _ b; simp [grabAfterFirst]
  | cons x xs ih =>
    intro hp hn b
    have hx1 : ¬x = ')' := fun hh => hp (by simp [hh])
    have hx2 : ¬x = '\n' := fun hh => hn (by simp [hh])
    have h1 : ')' ∉ xs := fun hh => hp (by simp [hh])
    have h2 : '\n' ∉ xs := fun hh => hn (by simp [hh])
    simp [grabAfterFirst, hx1, hx2, ih h1 h2 b]

theorem grabTarget_complete {a : List Char} (hne : a ≠ [])
    (hp : ')' ∉ a) (hn : '\n' ∉ a) (b : List Char) :
    grabTarget (a ++ ')' :: b) = some (a, b) := by
  cases a with
  | nil => exact absurd rfl hne
  | cons x xs =>
    have hx2 : ¬x = '\n' := fun hh => hn (by simp [hh])
    have h1 : ')' ∉ xs := fun hh => hp (by simp [hh])
    have h2 : '\n' ∉ xs := fun hh => hn (by simp [hh])
    simp only [List.cons_append, grabTarget, if_neg hx2,
      grabAfterFirst_complete h1 h2 b]

theorem tryMatchCons_eq (c : Char) (s1 : List Char) :
    tryMatch (c :: s1) =
      if c = '[' then
        match splitAtFirst ']' s1 with
        | none => none
        | some (label, s2) => if label = [] then none else expectTarget label s2
      else none := rfl

theorem expectTargetCons_eq (label : List Char) (a b c d : Char) (s3 : List Char) :
    expectTarget label (a :: b :: c :: d :: s3) =
      if a = '(' ∧ b = '.' ∧ c = '.' ∧ d = '/' then
        match grabTarget s3 with
        | none => none
        | some (g2, rem) => some (label, g2, rem)
      else none := rfl

theorem tryMatch_complete {label rest : List Char} (hlab : label ≠ [])
    (hbr : ']' ∉ label) (hne : rest ≠ []) (hp : ')' ∉ rest) (hn : '\n' ∉ rest)
    (tail : List Char) :
    tryMatch ('[' :: label ++ ']' :: '(' :: '.' :: '.' :: '/' :: rest ++ ')' :: tail)
      = some (label, rest, tail) := by
  have hsp : splitAtFirst ']' (label ++ ']' ::
      ('(' :: '.' :: '.' :: '/' :: (rest ++ ')' :: tail))) =
      some (label, '(' :: '.' :: '.' :: '/' :: (rest ++ ')' :: tail)) :=
    splitAtFirst_complete hbr ('(' :: '.' :: '.' :: '/' :: (rest ++ ')' :: tail))
  simp only [List.cons_append, List.append_assoc]
  rw [tryMatchCons_eq, if_pos rfl, hsp]
  show (if label = [] then none
    else expectTarget label ('(' :: '.' :: '.' :: '/' :: (rest ++ ')' :: tail)))
    = some (label, rest, tail)
  rw [if_neg hlab, expectTargetCons_eq, if_pos ⟨rfl, rfl, rfl, rfl⟩,
    grabTarget_complete hne hp hn tail]

/-- `re.sub` of the pattern on a text, with replacement
`[\g<1>]({dir_path}/\g<2>)` (src/main.py lines 106-107 and 115): scan left to
right; at a match, emit the replacement and continue after the match;
otherwise emit the character and move on one position. -/
def scanLinks (dirPath : String) : List Char → List Char
  | [] => []
  | c :: rest =>
    match h : tryMatch (c :: rest) with
    | some (label, g2, rem) =>
      '[' :: label ++ ']' :: '(' :: dirPath.data ++ '/' :: g2 ++ ')' :: scanLinks dirPath rem
    | none => c :: scanLinks dirPath rest
termination_by l => l.length
decreasing_by
  · exact tryMatch_rem_length h
  · simp

/-- The content written for a leaf document by the pre-render variant:
`md_broken_link_pat.sub(md_replace_link_pat, md_file.read_text())`
(src/main.py line 115). -/
def rewriteLinks (dirPath content : String) : String :=
  ⟨scanLinks dirPath content.data⟩

theorem scanLinks_nil (dirPath : String) : scanLinks dirPath [] = [] := by
  simp [scanLinks]

theorem scanLinks_cons_pos {c : Char} {rest label g2 rem : List Char}
    (dirPath : String) (h : tryMatch (c :: rest) = some (label, g2, rem)) :
    scanLinks dirPath (c :: rest) =
      '[' :: label ++ ']' :: '(' :: dirPath.data ++ '/' :: g2 ++ ')' ::
        scanLinks dirPath rem := by
  rw [scanLinks]
  split
  · next l2 g2' rem2 heq =>
    rw [h] at heq
    obtain ⟨h1, h2, h3⟩ : l2 = label ∧ g2' = g2 ∧ rem2 = rem := by
      simpa using heq.symm
    rw [h1, h2, h3]
  · next heq => rw [h] at heq; exact absurd heq (by simp)

theorem scanLinks_cons_neg {c : Char} {rest : List Char}
    (dirPath : String) (h : tryMatch (c :: rest) = none) :
    scanLinks dirPath (c :: rest) = c :: scanLinks dirPath rest := by
  rw [scanLinks]
  split
  · next l2 g2' rem2 heq => rw [h] at heq; exact absurd heq (by simp)
  · rfl

theorem hasSub_eq_true_iff {pat l : List Char} : hasSub pat l = true ↔ pat <:+: l := by
  simp only [hasSub, List.any_eq_true]
  constructor
  · rintro ⟨t, ht, hp⟩
    rw [List.mem_tails] at ht
    rw [List.isPrefixOf_iff_prefix] at hp
    exact List.infix_iff_prefix_suffix.2 ⟨t, hp, ht⟩
  · intro h
    obtain ⟨t, hp, ht⟩ := List.infix_iff_prefix_suffix.1 h
    exact ⟨t, (List.mem_tails _ _).2 ht, List.isPrefixOf_iff_prefix.2 hp⟩

/-- A successful match contains the five-character block `](../`. -/
theorem tryMatch_marker {s label g2 rem : List Char}
    (h : tryMatch s = some (label, g2, rem)) : "](../".data <:+: s := by
  obtain ⟨hs, _⟩ := tryMatch_sound h
  refine ⟨'[' :: label, g2 ++ ')' :: rem, ?_⟩
  rw [hs]
  show ('[' :: label) ++ [']', '(', '.', '.', '/'] ++ (g2 ++ ')' :: rem) = _
  simp [List.append_assoc]

theorem hasSub_false_cons {pat : List Char} {c : Char} {l : List Char}
    (h : hasSub pat (c :: l) = false) : hasSub pat l = false := by
  rw [← Bool.not_eq_true] at h ⊢
  intro hc
  exact h (hasSub_eq_true_iff.2 (List.infix_cons (hasSub_eq_true_iff.1 hc)))

theorem scanLinks_no_marker_aux (d : String) :
    ∀ (n : Nat) (l : List Char), l.length ≤ n →
      hasSub "](../".data l = false → scanLinks d l = l := by
  intro n
  induction n with
  | zero =>
    intro l hl _
    have : l = [] := List.eq_nil_of_length_eq_zero (Nat.le_zero.1 hl)
    rw [this, scanLinks_nil]
  | succ n ih =>
    intro l hl hno
    cases l with
    | nil => exact scanLinks_nil d
    | cons c rest =>
      cases hm : tryMatch (c :: rest) with
      | some p =>
        obtain ⟨label, g2, rem⟩ := p
        have := hasSub_eq_true_iff.2 (tryMatch_marker hm)
        rw [hno] at this
        exact absurd this (by simp)
      | none =>
        rw [scanLinks_cons_neg d hm]
        have hrest : rest.length ≤ n := by
          have := hl
          simp at this
          omega
        rw [ih rest hrest (hasSub_false_cons hno)]

/-- A text with no occurrence of `](../` is left unchanged by the link
rewriting. -/
theorem scanLinks_no_marker {d : String} {l : List Char}
    (hno : hasSub "](../".data l = false) : scanLinks d l = l :=
  scanLinks_no_marker_aux d l.length l (Nat.le_refl _) hno

/-! ## Properties of the sort -/

theorem mapM_weightKeys_some {α : Type} (wOf : α → Option String) :
    ∀ {l : List α} {keyed : List (Int × α)},
      l.mapM (fun x => (pySortKey (wOf x)).map (fun k => (k, x))) = some keyed →
      keyed.map Prod.snd = l ∧ ∀ p ∈ keyed, pySortKey (wOf p.2) = some p.1 := by
  intro l
  induction l with
  | nil =>
    intro keyed h
    simp only [List.mapM_nil, pure, Option.some_inj] at h
    subst h
    simp
  | cons x xs ih =>
    intro keyed h
    rw [List.mapM_cons] at h
    cases hk : pySortKey (wOf x) with
    | none => rw [hk] at h; simp at h
    | some k =>
      rw [hk] at h
      cases hm : xs.mapM (fun x => (pySortKey (wOf x)).map (fun k => (k, x))) with
      | none => rw [hm] at h; simp at h
      | some kd =>
        rw [hm] at h
        have h2 : ((k, x) :: kd) = keyed := Option.some.inj h
        subst h2
        obtain ⟨ih1, ih2⟩ := ih hm
        refine ⟨by simp [ih1], ?_⟩
        intro p hp
        rcases List.mem_cons.1 hp with hp | hp
        · subst hp; exact hk
        · exact ih2 p hp

theorem orderedInsert_filter_key {α : Type} (k : Int) (x : Int × α) :
    ∀ l : List (Int × α),
      (l.orderedInsert (fun a b => a.1 ≤ b.1) x).filter (fun p => p.1 == k)
        = if x.1 == k then x :: l.filter (fun p => p.1 == k)
          else l.filter (fun p => p.1 == k) := by
  intro l
  induction l with
  | nil =>
    by_cases hxk : x.1 = k
    · simp [List.orderedInsert, List.filter, hxk]
    · have hb : (x.1 == k) = false := by simp [hxk]
      simp [List.orderedInsert, List.filter, hxk, hb]
  | cons y ys ih =>
    by_cases hxy : x.1 ≤ y.1
    · simp only [List.orderedInsert, if_pos hxy]
      by_cases hxk : x.1 = k
      · simp [List.filter, hxk]
      · have : (x.1 == k) = false := by simp [hxk]
        simp [List.filter, this, hxk]
    · simp only [List.orderedInsert, if_neg hxy]
      by_cases hyk : y.1 = k
      · have hxk : x.1 ≠ k := by
          intro hh
          exact hxy (by rw [hh, hyk])
        have hxkb : (x.1 == k) = false := by simp [hxk]
        simp [List.filter, hyk, ih, hxkb]
      · have hykb : (y.1 == k) = false := by simp [hyk]
        simp [List.filter, hykb, ih]

theorem insertionSort_filter_key {α : Type} (k : Int) :
    ∀ l : List (Int × α),
      (l.insertionSort (fun a b => a.1 ≤ b.1)).filter (fun p => p.1 == k)
        = l.filter (fun p => p.1 == k) := by
  intro l
  induction l with
  | nil => simp [List.insertionSort]
  | cons x xs ih =>
    simp only [List.insertionSort, orderedInsert_filter_key, ih]
    by_cases hxk : x.1 = k
    · simp [List.filter, hxk]
    · have : (x.1 == k) = false := by simp [hxk]
      simp [List.filter, this]

theorem pySortByWeight_keys {α : Type} {wOf : α → Option String}
    {l l' : List α} (h : pySortByWeight wOf l = some l') :
    ∀ x ∈ l, ∃ k, pySortKey (wOf x) = some k := by
  intro x hx
  unfold pySortByWeight at h
  cases hm : l.mapM (fun x => (pySortKey (wOf x)).map (fun k => (k, x))) with
  | none => rw [hm] at h; exact absurd h (by simp)
  | some keyed =>
    obtain ⟨hsnd, hkeys⟩ := mapM_weightKeys_some wOf hm
    rw [← hsnd] at hx
    obtain ⟨p, hp, hpx⟩ := List.mem_map.1 hx
    exact ⟨p.1, hpx ▸ hkeys p hp⟩

theorem pySortByWeight_none {α : Type} {wOf : α → Option String}
    {l : List α} {x : α} (hx : x ∈ l) (hk : pySortKey (wOf x) = none) :
    pySortByWeight wOf l = none := by
  cases h : pySortByWeight wOf l with
  | none => rfl
  | some l' =>
    obtain ⟨k, hk2⟩ := pySortByWeight_keys h x hx
    rw [hk] at hk2
    exact absurd hk2 (by simp)

theorem pySortByWeight_spec {α : Type} {wOf : α → Option String}
    {l l' : List α} (h : pySortByWeight wOf l = some l') :
    l'.Perm l ∧
    l'.Pairwise (fun a b =>
      (pySortKey (wOf a)).getD 0 ≤ (pySortKey (wOf b)).getD 0) ∧
    ∀ k : Int, l'.filter (fun x => pySortKey (wOf x) == some k)
      = l.filter (fun x => pySortKey (wOf x) == some k) := by
  unfold pySortByWeight at h
  cases hm : l.mapM (fun x => (pySortKey (wOf x)).map (fun k => (k, x))) with
  | none => rw [hm] at h; exact absurd h (by simp)
  | some keyed =>
    rw [hm] at h
    simp only [Option.some_inj] at h
    obtain ⟨hsnd, hkeys⟩ := mapM_weightKeys_some wOf hm
    have hperm : (keyed.insertionSort (fun a b => a.1 ≤ b.1)).Perm keyed :=
      List.perm_insertionSort _ _
    have hkeys' : ∀ p ∈ keyed.insertionSort (fun a b => a.1 ≤ b.1),
        pySortKey (wOf p.2) = some p.1 := by
      intro p hp
      exact hkeys p (hperm.subset hp)
    constructor
    · rw [← h, ← hsnd]
      exact hperm.map Prod.snd
    constructor
    · have hsorted : (keyed.insertionSort (fun a b => a.1 ≤ b.1)).Pairwise
          (fun a b => a.1 ≤ b.1) := by
        haveI : IsTotal (Int × α) (fun a b => a.1 ≤ b.1) :=
          ⟨fun a b => Int.le_total a.1 b.1⟩
        haveI : IsTrans (Int × α) (fun a b => a.1 ≤ b.1) :=
          ⟨fun _ _ _ h1 h2 => le_trans h1 h2⟩
        exact List.sorted_insertionSort _ _
      have himp : (keyed.insertionSort (fun a b => a.1 ≤ b.1)).Pairwise
          (fun a b => (pySortKey (wOf a.2)).getD 0 ≤ (pySortKey (wOf b.2)).getD 0) := by
        refine hsorted.imp_of_mem ?_
        intro a b ha hb hab
        rw [hkeys' a ha, hkeys' b hb]
        simpa using hab
      rw [← h]
      exact (List.pairwise_map).2 himp
    · intro k
      rw [← h, ← hsnd]
      rw [List.filter_map, List.filter_map]
      have hcong : ∀ (m : List (Int × α)), (∀ p ∈ m, pySortKey (wOf p.2) = some p.1) →
          m.filter ((fun x => pySortKey (wOf x) == some k) ∘ Prod.snd)
            = m.filter (fun p => p.1 == k) := by
        intro m hkm
        apply List.filter_congr
        intro p hp
        simp only [Function.comp, hkm p hp, Option.some_beq_some]
      rw [hcong _ hkeys', hcong _ hkeys, insertionSort_filter_key]

/-! ## Temporary files -/

/-- The scratch directory `tmp_dir`: `NamedTemporaryFile(..., delete=False,
dir=tmp_dir)` creates a fresh file inside it on each call.  Fresh names are
modelled by a counter; `files` records every created file as
`(path, written content)` in creation order. -/
structure TmpState where
  counter : Nat
  files : List (Nat × String)
deriving DecidableEq

/-- Create one temporary file holding `content`; returns its path. -/
def newTmp (st : TmpState) (content : String) : Nat × TmpState :=
  (st.counter, ⟨st.counter + 1, st.files ++ [(st.counter, content)]⟩)

/-! ## Fragment texts -/

/-- `".".join(map(str, section_number))` (src/main.py line 87). -/
def dottedSection (secNum : List Nat) : String :=
  String.intercalate "." (secNum.map toString)

/-- The content of the section header file (src/main.py lines 86-89). -/
def headerText (secNum : List Nat) (tT : Option String) (dirName : String)
    (tD : Option String) : String :=
  "# Section " ++ dottedSection secNum ++ " \"" ++ pyOr tT dirName ++ "\"\n\n"
    ++ (if pyTruthy tD then tD.getD "" ++ "\n\n" else "")

/-- One bullet of the "Content" listing (src/main.py line 99). -/
def bulletText (title descr : Option String) (pathStr : String) : String :=
  "* " ++ pyOr title pathStr ++ " &mdash; " ++ pyOr descr "subsection" ++ "\n\n"

/-- The content of the TOC file (src/main.py lines 96-99): a heading and one
bullet per sorted leaf document, then per sorted subsection. -/
def tocText (dirPath : String) (stoc : List TocEntry) (ssubs : List SubEntry) : String :=
  "## Content\n\n" ++
    String.join
      (stoc.map (fun e => bulletText e.title e.descr (childPath dirPath e.name))
        ++ ssubs.map (fun e => bulletText e.title e.descr (childPath dirPath e.child.fname)))

/-- The per-document loop (src/main.py lines 108-117): for each sorted leaf
document, create a title file and a rewritten-content file, and append
`[title, body, separator]` to the sequence. -/
def emitDocs (dirPath : String) (sepId : Nat) :
    List TocEntry → List Nat → TmpState → List Nat × TmpState
  | [], seq, st => (seq, st)
  | e :: rest, seq, st =>
    let t1 := newTmp st ("# " ++ pyOr e.title (childPath dirPath e.name) ++ "\n\n")
    let t2 := newTmp t1.2 (rewriteLinks dirPath e.content)
    emitDocs dirPath sepId rest (seq ++ [t1.1, t2.1, sepId]) t2.2

/-! ## Termination measures for the tree walk -/

mutual
/-- Size measure used to justify termination of the recursive walk. -/
def FSEntry.esize : FSEntry → Nat
  | .file _ _ => 1
  | .dir _ children => 1 + esizeList children
def esizeList : List FSEntry → Nat
  | [] => 0
  | c :: rest => 1 + FSEntry.esize c + esizeList rest
end

/-- Combined size of the filesystem entries carried by a `SubEntry` list. -/
def subsSize (l : List SubEntry) : Nat :=
  (l.map (fun s => 1 + s.child.esize)).sum

theorem subsSize_nil : subsSize [] = 0 := rfl

theorem subsSize_cons (s : SubEntry) (rest : List SubEntry) :
    subsSize (s :: rest) = 1 + s.child.esize + subsSize rest := by
  simp [subsSize]
  try omega

theorem subsSize_append (l₁ l₂ : List SubEntry) :
    subsSize (l₁ ++ l₂) = subsSize l₁ + subsSize l₂ := by
  simp [subsSize]

theorem classifyLoop_subsSize :
    ∀ (children : List FSEntry) (toc : List TocEntry) (subs : List SubEntry)
      (tT tD : Option String) (toc' : List TocEntry) (subs' : List SubEntry)
      (tT' tD' : Option String),
      classifyLoop children toc subs tT tD = some (toc', subs', tT', tD') →
      subsSize subs' ≤ subsSize subs + esizeList children := by
  intro children
  induction children with
  | nil =>
    intro toc subs tT tD toc' subs' tT' tD' h
    simp [classifyLoop] at h
    simp [h.2.1, esizeList]
  | cons child rest ih =>
    intro toc subs tT tD toc' subs' tT' tD' h
    have hsz : esizeList (child :: rest) = 1 + child.esize + esizeList rest := by
      rw [esizeList]
    match child, h with
    | .dir n ch, h =>
      rw [classifyLoop] at h
      cases hgd : get_dir_header ch with
      | none => rw [hgd] at h; exact absurd h (by simp)
      | some w =>
        obtain ⟨w1, w2, w3⟩ := w
        rw [hgd] at h
        have hih := ih _ _ _ _ _ _ _ _ h
        rw [subsSize_append] at hih
        have hone : subsSize [⟨w1, w2, w3, FSEntry.dir n ch⟩]
            = 1 + (FSEntry.dir n ch).esize := by
          simp [subsSize]
        rw [hsz]
        show subsSize subs' ≤ subsSize subs + (1 + (FSEntry.dir n ch).esize + esizeList rest)
        omega
    | .file n c, h =>
      rw [classifyLoop] at h
      by_cases hidx : n = INDEX_FILENAME
      · rw [if_pos hidx] at h
        have hih := ih _ _ _ _ _ _ _ _ h
        omega
      · rw [if_neg hidx] at h
        by_cases hmd : pyLast3 n = MD_EXT.data
        · rw [if_pos hmd] at h
          have hih := ih _ _ _ _ _ _ _ _ h
          omega
        · rw [if_neg hmd] at h
          have hih := ih _ _ _ _ _ _ _ _ h
          omega

theorem subdirs_size_lt {children : List FSEntry} {toc : List TocEntry}
    {subs ssubs : List SubEntry} {tT tD : Option String} (dirName : String)
    (hcl : classifyChildren children = some (toc, subs, tT, tD))
    (hs : pySortByWeight SubEntry.weight subs = some ssubs) :
    subsSize ssubs < (FSEntry.dir dirName children).esize := by
  have hperm : ssubs.Perm subs := (pySortByWeight_spec hs).1
  have h1 : subsSize ssubs = subsSize subs := (hperm.map _).sum_eq
  have h2 : subsSize subs ≤ subsSize [] + esizeList children :=
    classifyLoop_subsSize children [] [] none none _ _ _ _ hcl
  have h4 : (FSEntry.dir dirName children).esize = 1 + esizeList children := by
    rw [FSEntry.esize]
  have h5 : subsSize [] = 0 := rfl
  omega

/-! ## `iterate_directory` (src/main.py lines 53-133) -/

mutual
/-- `iterate_directory(dir_path, tmp_dir, section_number, section_separator)`
(src/main.py lines 53-133).  `e` is the directory being processed and
`dirPath` its path string.  In order: classify the children (lines 65-77),
create the separator file (81-83) and the header file (86-90), sort `toc`
and `subdirs` (92-93, the keys' `int` may fail), emit the TOC block when
there is content (95-100), emit each sorted leaf document (108-117),
recurse into each sorted subsection (120-125), and emit the `"No content."`
placeholder when there is none (128-131).  Returns the fragment path
sequence and the final scratch state.  Called on a non-directory it fails
(the caller guarantees a directory; `iterdir` on a file raises). -/
def iterate_directory (e : FSEntry) (dirPath : String) (secNum : List Nat)
    (sep : String) (st : TmpState) : Option (List Nat × TmpState) :=
  match e with
  | .file _ _ => none
  | .dir dirName children =>
    match hcl : classifyChildren children with
    | none => none
    | some (toc, subs, tT, tD) =>
      let s1 := newTmp st sep
      let s2 := newTmp s1.2 (headerText secNum tT dirName tD)
      match hst : pySortByWeight TocEntry.weight toc,
            hss : pySortByWeight SubEntry.weight subs with
      | some stoc, some ssubs =>
        let p :=
          if stoc.length > 0 ∨ ssubs.length > 0 then
            let t := newTmp s2.2 (tocText dirPath stoc ssubs)
            ([s2.1, t.1, s1.1], t.2)
          else ([s2.1], s2.2)
        let q := emitDocs dirPath s1.1 stoc p.1 p.2
        match iterSubs ssubs dirPath secNum 1 sep q.2 with
        | none => none
        | some (subSeq, st5) =>
          if stoc.length = 0 ∧ ssubs.length = 0 then
            let nc := newTmp st5 "No content."
            some (q.1 ++ subSeq ++ [nc.1, s1.1], nc.2)
          else some (q.1 ++ subSeq, st5)
      | _, _ => none
termination_by (e.esize, 1)
decreasing_by
  simp_wf
  first
  | exact Prod.Lex.left _ _ (subdirs_size_lt _ hcl hss)
  | exact subdirs_size_lt _ hcl hss

/-- The subsection loop of `iterate_directory` (src/main.py lines 120-125):
recurse into each sorted subdirectory with the section number extended by
the 1-based running index. -/
def iterSubs (l : List SubEntry) (dirPath : String) (secNum : List Nat)
    (idx : Nat) (sep : String) (st : TmpState) : Option (List Nat × TmpState) :=
  match l with
  | [] => some ([], st)
  | s :: rest =>
    match iterate_directory s.child (childPath dirPath s.child.fname)
        (secNum ++ [idx]) sep st with
    | none => none
    | some (q, st') =>
      match iterSubs rest dirPath secNum (idx + 1) sep st' with
      | none => none
      | some (q2, st'') => some (q ++ q2, st'')
termination_by (subsSize l, 0)
decreasing_by
  all_goals simp_wf
  all_goals first
  | exact Prod.Lex.left _ _ (by rw [subsSize_cons]; omega)
  | (rw [subsSize_cons]; omega)
end

/-- The fragment sequence accumulated by `iterate_directory` after the header
and the optional TOC block (src/main.py lines 90-100): the header file path,
then, when there is content, the TOC file path and the separator path. -/
def afterHeaderSeq (st : TmpState) (stoc : List TocEntry) (ssubs : List SubEntry) :
    List Nat :=
  if stoc.length > 0 ∨ ssubs.length > 0 then
    [st.counter + 1, st.counter + 2, st.counter]
  else [st.counter + 1]

/-- The scratch state of `iterate_directory` after creating the separator,
header and optional TOC files (src/main.py lines 81-100). -/
def afterHeaderState (st : TmpState) (sep : String) (secNum : List Nat)
    (tT : Option String) (dirName : String) (tD : Option String)
    (dirPath : String) (stoc : List TocEntry) (ssubs : List SubEntry) : TmpState :=
  if stoc.length > 0 ∨ ssubs.length > 0 then
    ⟨st.counter + 3, st.files ++
      [(st.counter, sep),
       (st.counter + 1, headerText secNum tT dirName tD),
       (st.counter + 2, tocText dirPath stoc ssubs)]⟩
  else
    ⟨st.counter + 2, st.files ++
      [(st.counter, sep),
       (st.counter + 1, headerText secNum tT dirName tD)]⟩

/-- Unfolding of `iterate_directory` on a directory whose classification and
sorts succeed: the separator file gets path `st.counter`, the header file
`st.counter + 1`, the TOC file (when content exists) `st.counter + 2`, then
the documents are emitted, the subsections are walked, and the placeholder
is appended when there is no content. -/
theorem iterate_directory_dir {children : List FSEntry} {toc : List TocEntry}
    {subs : List SubEntry} {tT tD : Option String} {stoc : List TocEntry}
    {ssubs : List SubEntry} (dirName dirPath : String) (secNum : List Nat)
    (sep : String) (st : TmpState)
    (hcl : classifyChildren children = some (toc, subs, tT, tD))
    (hst : pySortByWeight TocEntry.weight toc = some stoc)
    (hss : pySortByWeight SubEntry.weight subs = some ssubs) :
    iterate_directory (FSEntry.dir dirName children) dirPath secNum sep st =
      (match iterSubs ssubs dirPath secNum 1 sep
          (emitDocs dirPath st.counter stoc (afterHeaderSeq st stoc ssubs)
            (afterHeaderState st sep secNum tT dirName tD dirPath stoc ssubs)).2 with
       | none => none
       | some (subSeq, st5) =>
         if stoc.length = 0 ∧ ssubs.length = 0 then
           some ((emitDocs dirPath st.counter stoc (afterHeaderSeq st stoc ssubs)
               (afterHeaderState st sep secNum tT dirName tD dirPath stoc ssubs)).1
             ++ subSeq ++ [st5.counter, st.counter],
             ⟨st5.counter + 1, st5.files ++ [(st5.counter, "No content.")]⟩)
         else
           some ((emitDocs dirPath st.counter stoc (afterHeaderSeq st stoc ssubs)
               (afterHeaderState st sep secNum tT dirName tD dirPath stoc ssubs)).1
             ++ subSeq, st5)) := by
  rw [iterate_directory]
  split
  · next heq => rw [hcl] at heq; exact absurd heq (by simp)
  · next toc2 subs2 tT2 tD2 heq =>
    rw [hcl] at heq
    obtain ⟨h1, h2, h3, h4⟩ : toc2 = toc ∧ subs2 = subs ∧ tT2 = tT ∧ tD2 = tD := by
      have := Option.some.inj heq
      simp at this
      exact ⟨this.1.symm, this.2.1.symm, this.2.2.1.symm, this.2.2.2.symm⟩
    subst h1 h2 h3 h4
    split
    · next stoc2 ssubs2 hst2 hss2 =>
      rw [hst] at hst2
      rw [hss] at hss2
      have e1 : stoc2 = stoc := (Option.some.inj hst2).symm
      have e2 : ssubs2 = ssubs := (Option.some.inj hss2).symm
      subst e1 e2
      by_cases hcond : 0 < stoc2.length ∨ 0 < ssubs2.length
      · simp [newTmp, hcond, List.append_assoc, afterHeaderSeq, afterHeaderState]
      · simp [newTmp, hcond, List.append_assoc, afterHeaderSeq, afterHeaderState]
    · next hne =>
      exact (hne stoc ssubs hst hss).elim

/-- `iterate_directory` on anything that is not a directory fails. -/
theorem iterate_directory_file (name content dirPath : String) (secNum : List Nat)
    (sep : String) (st : TmpState) :
    iterate_directory (FSEntry.file name content) dirPath secNum sep st = none := by
  rw [iterate_directory]

/-- `iterate_directory` fails when the classification fails. -/
theorem iterate_directory_classify_none {children : List FSEntry}
    (dirName dirPath : String) (secNum : List Nat) (sep : String) (st : TmpState)
    (hcl : classifyChildren children = none) :
    iterate_directory (FSEntry.dir dirName children) dirPath secNum sep st = none := by
  rw [iterate_directory]
  split
  · rfl
  · next toc2 subs2 tT2 tD2 heq =>
    rw [hcl] at heq
    exact absurd heq (by simp)

/-- `iterate_directory` fails when the two sorts cannot both succeed. -/
theorem iterate_directory_sorts_fail {children : List FSEntry}
    {toc : List TocEntry} {subs : List SubEntry} {tT tD : Option String}
    (dirName dirPath : String) (secNum : List Nat) (sep : String) (st : TmpState)
    (hcl : classifyChildren children = some (toc, subs, tT, tD))
    (hfail : ∀ (stoc : List TocEntry) (ssubs : List SubEntry),
      pySortByWeight TocEntry.weight toc = some stoc →
      pySortByWeight SubEntry.weight subs = some ssubs → False) :
    iterate_directory (FSEntry.dir dirName children) dirPath secNum sep st = none := by
  rw [iterate_directory]
  split
  · rfl
  · next toc2 subs2 tT2 tD2 heq =>
    rw [hcl] at heq
    obtain ⟨h1, h2, h3, h4⟩ : toc2 = toc ∧ subs2 = subs ∧ tT2 = tT ∧ tD2 = tD := by
      have := Option.some.inj heq
      simp at this
      exact ⟨this.1.symm, this.2.1.symm, this.2.2.1.symm, this.2.2.2.symm⟩
    subst h1 h2 h3 h4
    split
    · next stoc2 ssubs2 hst2 hss2 => exact (hfail stoc2 ssubs2 hst2 hss2).elim
    · rfl

/-- `iterate_directory` fails on a directory when a weight of the leaf
documents fails to parse. -/
theorem iterate_directory_dir_tocfail {children : List FSEntry}
    {toc : List TocEntry} {subs : List SubEntry} {tT tD : Option String}
    (dirName dirPath : String) (secNum : List Nat) (sep : String) (st : TmpState)
    (hcl : classifyChildren children = some (toc, subs, tT, tD))
    (hst : pySortByWeight TocEntry.weight toc = none) :
    iterate_directory (FSEntry.dir dirName children) dirPath secNum sep st = none := by
  rw [iterate_directory]
  split
  · next heq => rfl
  · next toc2 subs2 tT2 tD2 heq =>
    rw [hcl] at heq
    obtain ⟨h1, h2, h3, h4⟩ : toc2 = toc ∧ subs2 = subs ∧ tT2 = tT ∧ tD2 = tD := by
      have := Option.some.inj heq
      simp at this
      exact ⟨this.1.symm, this.2.1.symm, this.2.2.1.symm, this.2.2.2.symm⟩
    subst h1 h2 h3 h4
    split
    · next stoc2 ssubs2 hst2 hss2 => rw [hst] at hst2; exact absurd hst2 (by simp)
    · rfl

/-- A document containing no `](../` block is copied unchanged. -/
theorem rewriteLinks_no_marker {dirPath content : String}
    (hno : hasSub "](../".data content.data = false) :
    rewriteLinks dirPath content = content := by
  unfold rewriteLinks
  rw [scanLinks_no_marker hno]

/-! ## The section numbers of the assembled tree

`assembledSecNums e sn` is the projection of `iterate_directory e _ sn _ _`
that keeps, for every directory reached by the recursion, the
`section_number` argument it is invoked with (src/main.py lines 53, 120-125,
145): the classification and the two sorts are those of `iterate_directory`;
each sorted subsection is visited with the parent number extended by the
1-based running index. -/

mutual
def assembledSecNums (e : FSEntry) (sn : List Nat) : Option (List (List Nat)) :=
  match e with
  | .file _ _ => none
  | .dir _ children =>
    match hcl : classifyChildren children with
    | none => none
    | some (toc, subs, _, _) =>
      match pySortByWeight TocEntry.weight toc,
            hss : pySortByWeight SubEntry.weight subs with
      | some _, some ssubs =>
        match iterSubsNums ssubs sn 1 with
        | none => none
        | some ms => some (sn :: ms)
      | _, _ => none
termination_by (e.esize, 1)
decreasing_by
  simp_wf
  first
  | exact Prod.Lex.left _ _ (subdirs_size_lt _ hcl hss)
  | exact subdirs_size_lt _ hcl hss

def iterSubsNums (l : List SubEntry) (sn : List Nat) (idx : Nat) :
    Option (List (List Nat)) :=
  match l with
  | [] => some []
  | s :: rest =>
    match assembledSecNums s.child (sn ++ [idx]) with
    | none => none
    | some ns =>
      match iterSubsNums rest sn (idx + 1) with
      | none => none
      | some ms => some (ns ++ ms)
termination_by (subsSize l, 0)
decreasing_by
  all_goals simp_wf
  all_goals first
  | exact Prod.Lex.left _ _ (by rw [subsSize_cons]; omega)
  | (rw [subsSize_cons]; omega)
end

/-- Unfolding of `assembledSecNums` on a directory whose classification and
sorts succeed. -/
theorem assembledSecNums_dir {children : List FSEntry} {toc : List TocEntry}
    {subs : List SubEntry} {tT tD : Option String} {stoc : List TocEntry}
    {ssubs : List SubEntry} (dirName : String) (sn : List Nat)
    (hcl : classifyChildren children = some (toc, subs, tT, tD))
    (hst : pySortByWeight TocEntry.weight toc = some stoc)
    (hss : pySortByWeight SubEntry.weight subs = some ssubs) :
    assembledSecNums (FSEntry.dir dirName children) sn =
      (match iterSubsNums ssubs sn 1 with
       | none => none
       | some ms => some (sn :: ms)) := by
  rw [assembledSecNums]
  split
  · next heq => rw [hcl] at heq; exact absurd heq (by simp)
  · next toc2 subs2 tT2 tD2 heq =>
    rw [hcl] at heq
    obtain ⟨h1, h2, h3, h4⟩ : toc2 = toc ∧ subs2 = subs ∧ tT2 = tT ∧ tD2 = tD := by
      have := Option.some.inj heq
      simp at this
      exact ⟨this.1.symm, this.2.1.symm, this.2.2.1.symm, this.2.2.2.symm⟩
    subst h1 h2 h3 h4
    split
    · next stoc2 ssubs2 hst2 hss2 =>
      rw [hss] at hss2
      have e2 : ssubs2 = ssubs := (Option.some.inj hss2).symm
      subst e2
      rfl
    · next hne =>
      exact (hne stoc ssubs hst hss).elim

theorem emitDocs_cons (d : String) (sepId : Nat) (e : TocEntry)
    (rest : List TocEntry) (seq : List Nat) (st : TmpState) :
    emitDocs d sepId (e :: rest) seq st =
      emitDocs d sepId rest (seq ++ [st.counter, st.counter + 1, sepId])
        ⟨st.counter + 2,
         (st.files ++ [(st.counter, "# " ++ pyOr e.title (childPath d e.name) ++ "\n\n")])
           ++ [(st.counter + 1, rewriteLinks d e.content)]⟩ := rfl

theorem emitDocs_props (d : String) (sepId : Nat) :
    ∀ (l : List TocEntry) (seq : List Nat) (st : TmpState),
      st.counter ≤ (emitDocs d sepId l seq st).2.counter ∧
      st.files <+: (emitDocs d sepId l seq st).2.files ∧
      ∀ i ∈ (emitDocs d sepId l seq st).1,
        i ∈ seq ∨ i = sepId ∨
          (st.counter ≤ i ∧ ∃ c, (i, c) ∈ (emitDocs d sepId l seq st).2.files) := by
  intro l
  induction l with
  | nil =>
    intro seq st
    refine ⟨Nat.le_refl _, List.prefix_refl _, ?_⟩
    intro i hi
    exact Or.inl hi
  | cons e rest ih =>
    intro seq st
    rw [emitDocs_cons]
    set st2 : TmpState := ⟨st.counter + 2,
      (st.files ++ [(st.counter, "# " ++ pyOr e.title (childPath d e.name) ++ "\n\n")])
        ++ [(st.counter + 1, rewriteLinks d e.content)]⟩ with hst2
    obtain ⟨ih1, ih2, ih3⟩ := ih (seq ++ [st.counter, st.counter + 1, sepId]) st2
    have hcnt : st2.counter = st.counter + 2 := rfl
    have hpre : st.files <+: st2.files := by
      rw [hst2]
      refine List.IsPrefix.trans ⟨_, rfl⟩ ⟨_, rfl⟩
    refine ⟨by omega, hpre.trans ih2, ?_⟩
    intro i hi
    rcases ih3 i hi with hseq | hsep | ⟨hge, c, hc⟩
    · rcases List.mem_append.1 hseq with h1 | h2
      · exact Or.inl h1
      · simp only [List.mem_cons, List.mem_singleton] at h2
        rcases h2 with h2 | h2 | h2
        · refine Or.inr (Or.inr ⟨by omega, ?_⟩)
          refine ⟨"# " ++ pyOr e.title (childPath d e.name) ++ "\n\n", ?_⟩
          refine ih2.subset ?_
          rw [hst2, h2]
          simp
        · refine Or.inr (Or.inr ⟨by omega, ?_⟩)
          refine ⟨rewriteLinks d e.content, ?_⟩
          refine ih2.subset ?_
          rw [hst2, h2]
          simp
        · rcases h2 with h2 | h2
          · exact Or.inr (Or.inl h2)
          · exact absurd h2 (List.not_mem_nil i)
    · exact Or.inr (Or.inl hsep)
    · refine Or.inr (Or.inr ⟨by omega, c, hc⟩)

theorem afterHeaderState_files_pre (st : TmpState) (sep : String) (secNum : List Nat)
    (tT : Option String) (dirName : String) (tD : Option String)
    (dirPath : String) (stoc : List TocEntry) (ssubs : List SubEntry) :
    st.files <+: (afterHeaderState st sep secNum tT dirName tD dirPath stoc ssubs).files := by
  unfold afterHeaderState
  split
  · exact ⟨_, rfl⟩
  · exact ⟨_, rfl⟩

theorem afterHeaderState_counter_ge (st : TmpState) (sep : String) (secNum : List Nat)
    (tT : Option String) (dirName : String) (tD : Option String)
    (dirPath : String) (stoc : List TocEntry) (ssubs : List SubEntry) :
    st.counter + 2 ≤ (afterHeaderState st sep secNum tT dirName tD dirPath stoc ssubs).counter := by
  unfold afterHeaderState
  split
  · simp
  · simp

theorem afterHeaderState_mem_sep (st : TmpState) (sep : String) (secNum : List Nat)
    (tT : Option String) (dirName : String) (tD : Option String)
    (dirPath : String) (stoc : List TocEntry) (ssubs : List SubEntry) :
    (st.counter, sep) ∈ (afterHeaderState st sep secNum tT dirName tD dirPath stoc ssubs).files := by
  unfold afterHeaderState
  split
  · simp
  · simp

theorem afterHeaderSeq_props (st : TmpState) (sep : String) (secNum : List Nat)
    (tT : Option String) (dirName : String) (tD : Option String)
    (dirPath : String) (stoc : List TocEntry) (ssubs : List SubEntry) :
    ∀ i ∈ afterHeaderSeq st stoc ssubs, st.counter ≤ i ∧
      ∃ c, (i, c) ∈ (afterHeaderState st sep secNum tT dirName tD dirPath stoc ssubs).files := by
  intro i hi
  unfold afterHeaderSeq at hi
  unfold afterHeaderState
  by_cases hcond : stoc.length > 0 ∨ ssubs.length > 0
  · rw [if_pos hcond] at hi
    rw [if_pos hcond]
    simp only [List.mem_cons, List.mem_singleton] at hi
    rcases hi with hi | hi | hi | hi
    · subst hi
      exact ⟨by omega, headerText secNum tT dirName tD, by simp⟩
    · subst hi
      exact ⟨by omega, tocText dirPath stoc ssubs, by simp⟩
    · subst hi
      exact ⟨Nat.le_refl _, sep, by simp⟩
    · exact absurd hi (List.not_mem_nil i)
  · rw [if_neg hcond] at hi
    rw [if_neg hcond]
    simp only [List.mem_cons, List.mem_singleton] at hi
    rcases hi with hi | hi
    · subst hi
      exact ⟨by omega, headerText secNum tT dirName tD, by simp⟩
    · exact absurd hi (List.not_mem_nil i)

theorem iter_mono_dir_step {children : List FSEntry} {toc : List TocEntry}
    {subs : List SubEntry} {tT tD : Option String} {stoc : List TocEntry}
    {ssubs : List SubEntry} (dirName dirPath : String) (secNum : List Nat)
    (sep : String) (st : TmpState)
    (hcl : classifyChildren children = some (toc, subs, tT, tD))
    (hst : pySortByWeight TocEntry.weight toc = some stoc)
    (hss : pySortByWeight SubEntry.weight subs = some ssubs)
    (IH : ∀ (q2 : List Nat) (st2 : TmpState),
      iterSubs ssubs dirPath secNum 1 sep
        (emitDocs dirPath st.counter stoc (afterHeaderSeq st stoc ssubs)
          (afterHeaderState st sep secNum tT dirName tD dirPath stoc ssubs)).2
        = some (q2, st2) →
      (emitDocs dirPath st.counter stoc (afterHeaderSeq st stoc ssubs)
        (afterHeaderState st sep secNum tT dirName tD dirPath stoc ssubs)).2.files
          <+: st2.files ∧
      (emitDocs dirPath st.counter stoc (afterHeaderSeq st stoc ssubs)
        (afterHeaderState st sep secNum tT dirName tD dirPath stoc ssubs)).2.counter
          ≤ st2.counter ∧
      ∀ i ∈ q2,
        (emitDocs dirPath st.counter stoc (afterHeaderSeq st stoc ssubs)
          (afterHeaderState st sep secNum tT dirName tD dirPath stoc ssubs)).2.counter
            ≤ i ∧ ∃ c, (i, c) ∈ st2.files) :
    ∀ (q : List Nat) (st' : TmpState),
      iterate_directory (FSEntry.dir dirName children) dirPath secNum sep st
        = some (q, st') →
      st.files <+: st'.files ∧ st.counter ≤ st'.counter ∧
      ∀ i ∈ q, st.counter ≤ i ∧ ∃ c, (i, c) ∈ st'.files := by
  intro q st' h
  rw [iterate_directory_dir dirName dirPath secNum sep st hcl hst hss] at h
  obtain ⟨e1, e2, e3⟩ := emitDocs_props dirPath st.counter stoc
    (afterHeaderSeq st stoc ssubs)
    (afterHeaderState st sep secNum tT dirName tD dirPath stoc ssubs)
  have hApre := afterHeaderState_files_pre st sep secNum tT dirName tD dirPath stoc ssubs
  have hAcnt := afterHeaderState_counter_ge st sep secNum tT dirName tD dirPath stoc ssubs
  have hAsep := afterHeaderState_mem_sep st sep secNum tT dirName tD dirPath stoc ssubs
  have hAseq := afterHeaderSeq_props st sep secNum tT dirName tD dirPath stoc ssubs
  split at h
  · exact absurd h (by simp)
  · next subSeq st5 heq =>
    obtain ⟨i1, i2, i3⟩ := IH subSeq st5 heq
    have hfiles5 : st.files <+: st5.files := (hApre.trans e2).trans i1
    have hcnt5 : st.counter ≤ st5.counter := by omega
    have hmemlift : ∀ (i : Nat) (c : String),
        (i, c) ∈ (afterHeaderState st sep secNum tT dirName tD dirPath stoc ssubs).files →
        (i, c) ∈ st5.files := fun i c hm => (e2.trans i1).subset hm
    have hqids : ∀ i ∈ (emitDocs dirPath st.counter stoc (afterHeaderSeq st stoc ssubs)
        (afterHeaderState st sep secNum tT dirName tD dirPath stoc ssubs)).1 ++ subSeq,
        st.counter ≤ i ∧ ∃ c, (i, c) ∈ st5.files := by
      intro i hi
      rcases List.mem_append.1 hi with hi | hi
      · rcases e3 i hi with hs | hsep | ⟨hge, c, hc⟩
        · obtain ⟨hle, c, hc⟩ := hAseq i hs
          exact ⟨hle, c, hmemlift i c hc⟩
        · subst hsep
          exact ⟨Nat.le_refl _, sep, hmemlift _ sep hAsep⟩
        · exact ⟨by omega, c, i1.subset hc⟩
      · obtain ⟨hge, c, hc⟩ := i3 i hi
        exact ⟨by omega, c, hc⟩
    split at h
    · next hempty =>
      have hpair := Option.some.inj h
      have hq : (emitDocs dirPath st.counter stoc (afterHeaderSeq st stoc ssubs)
          (afterHeaderState st sep secNum tT dirName tD dirPath stoc ssubs)).1
          ++ subSeq ++ [st5.counter, st.counter] = q := congrArg Prod.fst hpair
      have hst' : (⟨st5.counter + 1, st5.files ++ [(st5.counter, "No content.")]⟩ : TmpState)
          = st' := congrArg Prod.snd hpair
      have hfl5 : st5.files <+: st'.files := by rw [← hst']; exact ⟨_, rfl⟩
      refine ⟨hfiles5.trans hfl5, ?_, ?_⟩
      · rw [← hst']
        show st.counter ≤ st5.counter + 1
        omega
      · intro i hi
        rw [← hq] at hi
        rcases List.mem_append.1 hi with hi | hi
        · obtain ⟨hle, c, hc⟩ := hqids i hi
          exact ⟨hle, c, hfl5.subset hc⟩
        · simp only [List.mem_cons, List.mem_singleton] at hi
          rcases hi with hi | hi | hi
          · subst hi
            refine ⟨hcnt5, "No content.", ?_⟩
            rw [← hst']
            simp
          · subst hi
            refine ⟨Nat.le_refl _, sep, hfl5.subset (hmemlift _ sep hAsep)⟩
          · exact absurd hi (List.not_mem_nil i)
    · next hnonempty =>
      have hpair := Option.some.inj h
      have hq : (emitDocs dirPath st.counter stoc (afterHeaderSeq st stoc ssubs)
          (afterHeaderState st sep secNum tT dirName tD dirPath stoc ssubs)).1
          ++ subSeq = q := congrArg Prod.fst hpair
      have hst' : st5 = st' := congrArg Prod.snd hpair
      subst hst'
      refine ⟨hfiles5, hcnt5, ?_⟩
      intro i hi
      rw [← hq] at hi
      exact hqids i hi

theorem esize_pos : ∀ e : FSEntry, 1 ≤ e.esize := by
  intro e
  cases e with
  | file n c => rw [FSEntry.esize]
  | dir n ch => rw [FSEntry.esize]; omega

theorem subsSize_zero {l : List SubEntry} (h : subsSize l ≤ 0) : l = [] := by
  cases l with
  | nil => rfl
  | cons s rest => rw [subsSize_cons] at h; omega

theorem iterSubs_nil (dirPath : String) (secNum : List Nat) (idx : Nat)
    (sep : String) (st : TmpState) :
    iterSubs [] dirPath secNum idx sep st = some ([], st) := by
  rw [iterSubs]

theorem iterSubs_cons (s : SubEntry) (rest : List SubEntry) (dirPath : String)
    (secNum : List Nat) (idx : Nat) (sep : String) (st : TmpState) :
    iterSubs (s :: rest) dirPath secNum idx sep st =
      (match iterate_directory s.child (childPath dirPath s.child.fname)
          (secNum ++ [idx]) sep st with
       | none => none
       | some (q, st') =>
         match iterSubs rest dirPath secNum (idx + 1) sep st' with
         | none => none
         | some (q2, st'') => some (q ++ q2, st'')) := by
  rw [iterSubs]

/-- The scratch store only grows, the path counter only grows, and every
fragment path returned by the walk is a created temporary file at or above
the starting counter.  Proved for `iterate_directory` and the subsection
loop simultaneously, by strong induction on the size of the input. -/
theorem iter_state_props_aux : ∀ N : Nat,
    (∀ (e : FSEntry) (dirPath : String) (secNum : List Nat) (sep : String)
        (st : TmpState) (q : List Nat) (st' : TmpState), e.esize ≤ N →
        iterate_directory e dirPath secNum sep st = some (q, st') →
        st.files <+: st'.files ∧ st.counter ≤ st'.counter ∧
        ∀ i ∈ q, st.counter ≤ i ∧ ∃ c, (i, c) ∈ st'.files) ∧
    (∀ (l : List SubEntry) (dirPath : String) (secNum : List Nat) (idx : Nat)
        (sep : String) (st : TmpState) (q : List Nat) (st' : TmpState),
        subsSize l ≤ N →
        iterSubs l dirPath secNum idx sep st = some (q, st') →
        st.files <+: st'.files ∧ st.counter ≤ st'.counter ∧
        ∀ i ∈ q, st.counter ≤ i ∧ ∃ c, (i, c) ∈ st'.files) := by
  intro N
  induction N with
  | zero =>
    constructor
    · intro e dirPath secNum sep st q st' hsz _
      have := esize_pos e
      omega
    · intro l dirPath secNum idx sep st q st' hsz h
      have hl : l = [] := subsSize_zero hsz
      subst hl
      rw [iterSubs_nil] at h
      have hpair := Option.some.inj h
      have hq : ([] : List Nat) = q := congrArg Prod.fst hpair
      have hst : st = st' := congrArg Prod.snd hpair
      subst hst
      refine ⟨List.prefix_refl _, Nat.le_refl _, ?_⟩
      intro i hi
      rw [← hq] at hi
      exact absurd hi (List.not_mem_nil i)
  | succ N ih =>
    obtain ⟨ih1, ih2⟩ := ih
    constructor
    · intro e dirPath secNum sep st q st' hsz h
      match e with
      | .file n c =>
        rw [iterate_directory_file] at h
        exact absurd h (by simp)
      | .dir dirName children =>
        cases hcl : classifyChildren children with
        | none =>
          rw [iterate_directory_classify_none dirName dirPath secNum sep st hcl] at h
          exact absurd h (by simp)
        | some r =>
          obtain ⟨toc, subs, tT, tD⟩ := r
          cases hst : pySortByWeight TocEntry.weight toc with
          | none =>
            rw [iterate_directory_sorts_fail dirName dirPath secNum sep st hcl
              (fun stoc ssubs hst' _ => by rw [hst] at hst'; exact absurd hst' (by simp))] at h
            exact absurd h (by simp)
          | some stoc =>
            cases hss : pySortByWeight SubEntry.weight subs with
            | none =>
              rw [iterate_directory_sorts_fail dirName dirPath secNum sep st hcl
                (fun stoc2 ssubs2 _ hss' => by rw [hss] at hss'; exact absurd hss' (by simp))] at h
              exact absurd h (by simp)
            | some ssubs =>
              refine iter_mono_dir_step dirName dirPath secNum sep st hcl hst hss ?_ q st' h
              intro q2 st2 hsubs
              have hszsubs : subsSize ssubs ≤ N := by
                have := subdirs_size_lt dirName hcl hss
                have he : (FSEntry.dir dirName children).esize ≤ N + 1 := hsz
                omega
              exact ih2 ssubs dirPath secNum 1 sep _ q2 st2 hszsubs hsubs
    · intro l dirPath secNum idx sep st q st' hsz h
      match l with
      | [] =>
        rw [iterSubs_nil] at h
        have hpair := Option.some.inj h
        have hq : ([] : List Nat) = q := congrArg Prod.fst hpair
        have hst : st = st' := congrArg Prod.snd hpair
        subst hst
        refine ⟨List.prefix_refl _, Nat.le_refl _, ?_⟩
        intro i hi
        rw [← hq] at hi
        exact absurd hi (List.not_mem_nil i)
      | s :: rest =>
        rw [iterSubs_cons] at h
        have hsesz : s.child.esize ≤ N ∧ subsSize rest ≤ N := by
          rw [subsSize_cons] at hsz
          have := esize_pos s.child
          constructor <;> omega
        cases hrec : iterate_directory s.child (childPath dirPath s.child.fname)
            (secNum ++ [idx]) sep st with
        | none => rw [hrec] at h; exact absurd h (by simp)
        | some r1 =>
          obtain ⟨q1, st1⟩ := r1
          rw [hrec] at h
          have h2 : (match iterSubs rest dirPath secNum (idx + 1) sep st1 with
              | none => none
              | some (q2, stb) => some (q1 ++ q2, stb)) = some (q, st') := h
          cases hrest : iterSubs rest dirPath secNum (idx + 1) sep st1 with
          | none => rw [hrest] at h2; exact absurd h2 (by simp)
          | some r2 =>
            obtain ⟨q2, st2⟩ := r2
            rw [hrest] at h2
            have hpair := Option.some.inj h2
            have hq : q1 ++ q2 = q := congrArg Prod.fst hpair
            have hst2 : st2 = st' := congrArg Prod.snd hpair
            subst hst2
            obtain ⟨c1, c2, c3⟩ := ih1 s.child _ _ sep st q1 st1 hsesz.1 hrec
            obtain ⟨d1, d2, d3⟩ := ih2 rest dirPath secNum (idx + 1) sep st1 q2 st2 hsesz.2 hrest
            refine ⟨c1.trans d1, by omega, ?_⟩
            intro i hi
            rw [← hq] at hi
            rcases List.mem_append.1 hi with hi | hi
            · obtain ⟨hle, c, hc⟩ := c3 i hi
              exact ⟨hle, c, d1.subset hc⟩
            · obtain ⟨hle, c, hc⟩ := d3 i hi
              exact ⟨by omega, c, hc⟩

/-- Packaged form of `iter_state_props_aux` for `iterate_directory`. -/
theorem iter_state_props {e : FSEntry} {dirPath : String} {secNum : List Nat}
    {sep : String} {st : TmpState} {q : List Nat} {st' : TmpState}
    (h : iterate_directory e dirPath secNum sep st = some (q, st')) :
    st.files <+: st'.files ∧ st.counter ≤ st'.counter ∧
    ∀ i ∈ q, st.counter ≤ i ∧ ∃ c, (i, c) ∈ st'.files :=
  (iter_state_props_aux e.esize).1 e dirPath secNum sep st q st' (Nat.le_refl _) h

/-! ## Properties of `get_file_header` -/

theorem splitLines_no_nl : ∀ {l : List Char}, '\n' ∉ l → splitLines l = [l] := by
  intro l
  induction l with
  | nil => intro _; rfl
  | cons c rest ih =>
    intro h
    have hc : ¬c = '\n' := fun hh => h (by simp [hh])
    have hr : '\n' ∉ rest := fun hh => h (by simp [hh])
    simp [splitLines, hc, ih hr]

theorem splitLines_ne_nil : ∀ l : List Char, splitLines l ≠ [] := by
  intro l
  cases l with
  | nil => simp [splitLines]
  | cons c rest =>
    by_cases hc : c = '\n'
    · simp [splitLines, hc]
    · cases hsl : splitLines rest with
      | nil => simp [splitLines, hc, hsl]
      | cons hd tl => simp [splitLines, hc, hsl]

theorem splitLines_append : ∀ (a b : List Char),
    splitLines (a ++ '\n' :: b) = splitLines a ++ splitLines b := by
  intro a b
  induction a with
  | nil => simp [splitLines]
  | cons c rest ih =>
    by_cases hc : c = '\n'
    · subst hc
      rw [List.cons_append]
      rw [show splitLines ('\n' :: (rest ++ '\n' :: b)) =
          [] :: splitLines (rest ++ '\n' :: b) from by rw [splitLines]; rw [if_pos rfl]]
      rw [show splitLines ('\n' :: rest) = [] :: splitLines rest from by
        rw [splitLines]; rw [if_pos rfl]]
      rw [ih]
      simp
    · cases hsl : splitLines rest with
      | nil => exact absurd hsl (splitLines_ne_nil rest)
      | cons hd tl =>
        have h1 : splitLines (c :: (rest ++ '\n' :: b)) =
            (c :: (splitLines (rest ++ '\n' :: b)).headD []) ::
              (splitLines (rest ++ '\n' :: b)).tail := by
          rw [splitLines]
          rw [if_neg hc]
          cases hx : splitLines (rest ++ '\n' :: b) with
          | nil => exact absurd hx (splitLines_ne_nil _)
          | cons x xs => simp
        rw [List.cons_append, h1, ih, hsl]
        simp [splitLines, hc, hsl]

theorem headerLoop_single (line : List Char) (t w d : Option String) :
    headerLoop [line] t w d =
      ((headerStep line t w d).2.1, (headerStep line t w d).1,
        (headerStep line t w d).2.2) := by
  rw [headerLoop]
  split
  · rfl
  · rw [headerLoop]

theorem headerLoop_stop : ∀ (lines suffix : List (List Char)) (t w d : Option String),
    ¬(pyTruthy t ∧ pyTruthy w ∧ pyTruthy d) →
    (pyTruthy (headerLoop lines t w d).1 ∧ pyTruthy (headerLoop lines t w d).2.1 ∧
      pyTruthy (headerLoop lines t w d).2.2) →
    headerLoop (lines ++ suffix) t w d = headerLoop lines t w d := by
  intro lines
  induction lines with
  | nil =>
    intro suffix t w d hstart hstop
    rw [headerLoop] at hstop
    exact absurd ⟨hstop.2.1, hstop.1, hstop.2.2⟩ hstart
  | cons line rest ih =>
    intro suffix t w d hstart hstop
    rw [headerLoop] at hstop
    rw [List.cons_append, headerLoop, headerLoop]
    split
    · rfl
    · next hcond =>
      rw [if_neg hcond] at hstop
      exact ih suffix _ _ _ hcond hstop

/-- C5 (as stated) is refuted by this input: after the first three lines of
the file every field has been found (`title` with the empty value), yet the
fourth line changes the result, because the loop's stop condition tests
Python truthiness and the empty `title` is falsy. -/
theorem c5_counterexample :
    get_file_header "title:\nweight: 1\ndescription: d" = (some "1", some "", some "d") ∧
    get_file_header "title:\nweight: 1\ndescription: d\ntitle: X" =
      (some "1", some "X", some "d") ∧
    (some "X" : Option String) ≠ some "" := by
  refine ⟨by decide, by decide, by decide⟩

/-- C5 amended: the metadata extractor stops reading as soon as all three of
`title`, `weight`, `description` hold *non-empty* values (Python truthiness),
or at end of file; once all three are non-empty, no appended later line
influences the result. -/
theorem c5_stop_when_all_truthy (c1 c2 : String)
    (h : pyTruthy (get_file_header c1).1 ∧ pyTruthy (get_file_header c1).2.1 ∧
      pyTruthy (get_file_header c1).2.2) :
    get_file_header (c1 ++ "\n" ++ c2) = get_file_header c1 := by
  unfold get_file_header at h ⊢
  have hdata : (c1 ++ "\n" ++ c2).data = c1.data ++ '\n' :: c2.data := by
    simp [String.data_append]
  rw [hdata, splitLines_append]
  exact headerLoop_stop _ _ none none none (by simp [pyTruthy]) h

/-- Witness for the amended C5 at a concrete input. -/
theorem c5_stop_when_all_truthy_witness :
    get_file_header ("title: a\nweight: 1\ndescription: d" ++ "\n" ++ "title: z") =
      get_file_header "title: a\nweight: 1\ndescription: d" :=
  c5_stop_when_all_truthy "title: a\nweight: 1\ndescription: d" "title: z"
    (by decide)

/-- C4 (as stated) is refuted: the line `title: A weight: 2` contains the
marker `weight:`, so by the claim the weight field would be set to `2`; the
source's `elif` chain gives `title:` priority and leaves `weight` unset,
and the whole stripped line past character offset 6 becomes the title. -/
theorem c4_counterexample :
    get_file_header "title: A weight: 2" = (none, some "A weight: 2", none) ∧
    (get_file_header "title: A weight: 2").1 ≠ some "2" := by
  refine ⟨by decide, by decide⟩

/-- C4 amended: for a stripped line, the three markers are tested in the
priority order `title:` > `weight:` > `description:` and only the first
matching branch runs; the field is set to the stripped line with its first
6, 7 or 12 characters removed (a fixed offset from the start of the line,
not from the marker's position), left-trimmed. -/
theorem c4_marker_offset_priority (s : String) (hnl : '\n' ∉ s.data) :
    (hasSub "title:".data (pyStrip s.data) = true →
      get_file_header s =
        (none, some (String.mk (pyLstrip ((pyStrip s.data).drop 6))), none)) ∧
    (hasSub "title:".data (pyStrip s.data) = false →
      hasSub "weight:".data (pyStrip s.data) = true →
      get_file_header s =
        (some (String.mk (pyLstrip ((pyStrip s.data).drop 7))), none, none)) ∧
    (hasSub "title:".data (pyStrip s.data) = false →
      hasSub "weight:".data (pyStrip s.data) = false →
      hasSub "description:".data (pyStrip s.data) = true →
      get_file_header s =
        (none, none, some (String.mk (pyLstrip ((pyStrip s.data).drop 12))))) := by
  unfold get_file_header
  rw [splitLines_no_nl hnl, headerLoop_single]
  refine ⟨?_, ?_, ?_⟩
  · intro h1
    simp [headerStep, h1]
  · intro h1 h2
    simp [headerStep, h1, h2]
  · intro h1 h2 h3
    simp [headerStep, h1, h2, h3]

/-- Witness for the amended C4 at concrete inputs. -/
theorem c4_marker_offset_priority_witness :
    get_file_header "title: A weight: 2" = (none, some "A weight: 2", none) ∧
    get_file_header "xweight: 5" = (some ": 5", none, none) := by
  constructor
  · exact (c4_marker_offset_priority "title: A weight: 2" (by decide)).1 (by decide)
  · exact (c4_marker_offset_priority "xweight: 5" (by decide)).2.1 (by decide) (by decide)

/-- C7: extracting metadata from a file holding the three lines
`title: Foo`, `weight: 3`, `description: Bar desc` in any of the six line
orders yields exactly `("3", "Foo", "Bar desc")` as the
`(weight, title, description)` tuple, values whitespace-trimmed. -/
theorem c7_round_trip :
    get_file_header "title: Foo\nweight: 3\ndescription: Bar desc" =
      (some "3", some "Foo", some "Bar desc") ∧
    get_file_header "title: Foo\ndescription: Bar desc\nweight: 3" =
      (some "3", some "Foo", some "Bar desc") ∧
    get_file_header "weight: 3\ntitle: Foo\ndescription: Bar desc" =
      (some "3", some "Foo", some "Bar desc") ∧
    get_file_header "weight: 3\ndescription: Bar desc\ntitle: Foo" =
      (some "3", some "Foo", some "Bar desc") ∧
    get_file_header "description: Bar desc\ntitle: Foo\nweight: 3" =
      (some "3", some "Foo", some "Bar desc") ∧
    get_file_header "description: Bar desc\nweight: 3\ntitle: Foo" =
      (some "3", some "Foo", some "Bar desc") := by
  refine ⟨by decide, by decide, by decide, by decide, by decide, by decide⟩

theorem tryMatch_complete' {label rest : List Char} (hlab : label ≠ [])
    (hbr : ']' ∉ label) (hne : rest ≠ []) (hp : ')' ∉ rest) (hn : '\n' ∉ rest)
    (tail : List Char) :
    tryMatch ('[' :: (label ++ ']' :: '(' :: '.' :: '.' :: '/' :: (rest ++ ')' :: tail)))
      = some (label, rest, tail) := by
  have h := tryMatch_complete hlab hbr hne hp hn tail
  simpa [List.cons_append, List.append_assoc] using h

/-- A position whose character is not `[` starts no match: `re.sub` skips
one character and scans on. -/
theorem tryMatch_not_bracket {c : Char} (hc : c ≠ '[') (s : List Char) :
    tryMatch (c :: s) = none := by
  simp [tryMatch, hc]

/-- The scan passes unchanged over any block of prose holding no `[`,
whatever follows it. -/
theorem scanLinks_append_no_bracket (d : String) :
    ∀ {p : List Char}, '[' ∉ p → ∀ l, scanLinks d (p ++ l) = p ++ scanLinks d l := by
  intro p
  induction p with
  | nil => intro _ l; rfl
  | cons x xs ih =>
    intro hx l
    have hx1 : x ≠ '[' := fun hh => hx (by simp [hh])
    have hx2 : '[' ∉ xs := fun hh => hx (by simp [hh])
    rw [List.cons_append, scanLinks_cons_neg d (tryMatch_not_bracket hx1 _),
      ih hx2 l]
    rfl

/-- C6: in the pre-render variant every inline link `[label](../rest)` in a
document's content is rewritten to `[label](dirPath/rest)` — the `../`
prefix replaced by the containing directory's path and a `/`, the remainder
kept, the scan continuing after the match: (a) when the match is at the
start of the content; (b) a position where no match starts contributes its
character unchanged and the scan moves one position on, so the rewrite
applies to a link at any position of the content; (c) a content without the
`](../` block (absolute, same-directory or external link targets) is copied
unmodified; (d) in particular a link preceded by any prose free of `[` is
rewritten in place with the prose kept. -/
theorem c6_broken_link_rewrite (dirPath label rest tail s pre : String)
    (c : Char) (cs : List Char)
    (hlab : label.data ≠ []) (hbr : ']' ∉ label.data) (hne : rest.data ≠ [])
    (hp : ')' ∉ rest.data) (hn : '\n' ∉ rest.data)
    (hs : hasSub "](../".data s.data = false)
    (hskip : tryMatch (c :: cs) = none)
    (hpre : '[' ∉ pre.data) :
    rewriteLinks dirPath ("[" ++ label ++ "](../" ++ rest ++ ")" ++ tail) =
      "[" ++ label ++ "](" ++ dirPath ++ "/" ++ rest ++ ")" ++ rewriteLinks dirPath tail ∧
    rewriteLinks dirPath ⟨c :: cs⟩ = ⟨[c]⟩ ++ rewriteLinks dirPath ⟨cs⟩ ∧
    rewriteLinks dirPath s = s ∧
    rewriteLinks dirPath (pre ++ ("[" ++ label ++ "](../" ++ rest ++ ")" ++ tail)) =
      pre ++ ("[" ++ label ++ "](" ++ dirPath ++ "/" ++ rest ++ ")" ++
        rewriteLinks dirPath tail) := by
  have h1 : "[".data = ['['] := rfl
  have h2 : "](../".data = [']', '(', '.', '.', '/'] := rfl
  have h3 : ")".data = [')'] := rfl
  have h4 : "](".data = [']', '('] := rfl
  have h5 : "/".data = ['/'] := rfl
  have hdata : ("[" ++ label ++ "](../" ++ rest ++ ")" ++ tail).data
      = '[' :: (label.data ++ ']' :: '(' :: '.' :: '.' :: '/' ::
          (rest.data ++ ')' :: tail.data)) := by
    simp [String.data_append, h1, h2, h3, List.append_assoc]
  have key : scanLinks dirPath ('[' :: (label.data ++ ']' :: '(' :: '.' :: '.' :: '/' ::
      (rest.data ++ ')' :: tail.data)))
      = '[' :: (label.data ++ ']' :: '(' ::
          (dirPath.data ++ '/' :: (rest.data ++ ')' :: scanLinks dirPath tail.data))) := by
    rw [scanLinks_cons_pos dirPath (tryMatch_complete' hlab hbr hne hp hn tail.data)]
    simp [List.append_assoc]
  have hrhs : ("[" ++ label ++ "](" ++ dirPath ++ "/" ++ rest ++ ")" ++
      rewriteLinks dirPath tail).data
      = '[' :: (label.data ++ ']' :: '(' ::
          (dirPath.data ++ '/' :: (rest.data ++ ')' :: scanLinks dirPath tail.data))) := by
    simp [String.data_append, h1, h3, h4, h5, List.append_assoc, rewriteLinks]
  have parta : rewriteLinks dirPath ("[" ++ label ++ "](../" ++ rest ++ ")" ++ tail) =
      "[" ++ label ++ "](" ++ dirPath ++ "/" ++ rest ++ ")" ++
        rewriteLinks dirPath tail := by
    unfold rewriteLinks
    rw [hdata, key, ← hrhs]
    rfl
  refine ⟨parta, ?_, rewriteLinks_no_marker hs, ?_⟩
  · unfold rewriteLinks
    show String.mk (scanLinks dirPath (c :: cs)) = _
    rw [scanLinks_cons_neg dirPath hskip]
    rfl
  · unfold rewriteLinks
    have hdata2 : (pre ++ ("[" ++ label ++ "](../" ++ rest ++ ")" ++ tail)).data
        = pre.data ++ ('[' :: (label.data ++ ']' :: '(' :: '.' :: '.' :: '/' ::
            (rest.data ++ ')' :: tail.data))) := by
      rw [String.data_append, hdata]
    have hrhs2 : (pre ++ ("[" ++ label ++ "](" ++ dirPath ++ "/" ++ rest ++ ")" ++
        rewriteLinks dirPath tail)).data
        = pre.data ++ ('[' :: (label.data ++ ']' :: '(' ::
            (dirPath.data ++ '/' :: (rest.data ++ ')' :: scanLinks dirPath tail.data)))) := by
      rw [String.data_append, hrhs]
    rw [hdata2, scanLinks_append_no_bracket dirPath hpre, key, ← hrhs2]
    rfl

/-- Witness for C6 at concrete inputs, including a link preceded by prose
(`x[a](../b)`). -/
theorem c6_broken_link_rewrite_witness :
    rewriteLinks "/docs/v3" ("[" ++ "link" ++ "](../" ++ "images/x.png" ++ ")" ++ " rest") =
      "[" ++ "link" ++ "](" ++ "/docs/v3" ++ "/" ++ "images/x.png" ++ ")" ++
        rewriteLinks "/docs/v3" " rest" ∧
    rewriteLinks "/docs/v3" ⟨'x' :: "[link](../images/x.png)".data⟩ =
      ⟨['x']⟩ ++ rewriteLinks "/docs/v3" ⟨"[link](../images/x.png)".data⟩ ∧
    rewriteLinks "/docs/v3" "see [a](/abs) and [b](img/y.png) and [c](https://e.io/p)" =
      "see [a](/abs) and [b](img/y.png) and [c](https://e.io/p)" ∧
    rewriteLinks "/docs/v3" ("x" ++ ("[" ++ "link" ++ "](../" ++ "images/x.png" ++ ")" ++ " rest")) =
      "x" ++ ("[" ++ "link" ++ "](" ++ "/docs/v3" ++ "/" ++ "images/x.png" ++ ")" ++
        rewriteLinks "/docs/v3" " rest") :=
  c6_broken_link_rewrite "/docs/v3" "link" "images/x.png" " rest"
    "see [a](/abs) and [b](img/y.png) and [c](https://e.io/p)" "x"
    'x' "[link](../images/x.png)".data
    (by decide) (by decide) (by decide) (by decide) (by decide) (by decide)
    (by decide) (by decide)

/-- C3 (as stated) is refuted: in a directory holding one leaf document
whose front matter says `weight: abc`, the weight is non-empty and
unparseable, so `int` raises `ValueError` and the walk aborts (`none`) —
the entry is not "counted as weight 0". -/
theorem c3_counterexample :
    iterate_directory (FSEntry.dir "root" [FSEntry.file "a.md" "weight: abc"])
      "p" [1] SECTION_SEPARATOR ⟨0, []⟩ = none ∧
    pySortKey (some "abc") = none := by
  constructor
  · exact iterate_directory_dir_tocfail "root" "p" [1] SECTION_SEPARATOR ⟨0, []⟩
      (by rfl) (by rfl)
  · decide

/-- C3 amended: each candidate list is sorted by `int(weight or 0)`:
a missing (`None`) or empty weight counts as integer 0; the sort output is a
permutation of the input, its keys are ascending, and entries of equal key
keep their original relative order (stable sort, characterised by the
filter-at-each-key equation); a non-empty weight that `int` cannot parse
aborts the run instead of counting as 0. -/
theorem c3_stable_sort_by_weight {α : Type} (wOf : α → Option String)
    (l l' : List α) :
    (pySortByWeight wOf l = some l' →
      l'.Perm l ∧
      l'.Pairwise (fun a b =>
        (pySortKey (wOf a)).getD 0 ≤ (pySortKey (wOf b)).getD 0) ∧
      ∀ k : Int, l'.filter (fun y => pySortKey (wOf y) == some k)
        = l.filter (fun y => pySortKey (wOf y) == some k)) ∧
    (∀ x ∈ l, pySortKey (wOf x) = none → pySortByWeight wOf l = none) ∧
    pySortKey none = some 0 ∧ pySortKey (some "") = some 0 := by
  refine ⟨fun h => pySortByWeight_spec h, fun x hx hk => pySortByWeight_none hx hk, ?_, ?_⟩
  · decide
  · decide

/-- Witness for the amended C3 at a concrete input: weights
`["2", None, "1"]` sort stably to `[None, "1", "2"]`, and an unparseable
weight makes the sort fail. -/
theorem c3_stable_sort_by_weight_witness :
    List.Perm [(none : Option String), some "1", some "2"] [some "2", none, some "1"] ∧
    List.Pairwise (fun a b => (pySortKey (id a)).getD 0 ≤ (pySortKey (id b)).getD 0)
      [(none : Option String), some "1", some "2"] ∧
    List.filter (fun y => pySortKey (id y) == some 0)
        [(none : Option String), some "1", some "2"]
      = List.filter (fun y => pySortKey (id y) == some 0) [some "2", none, some "1"] ∧
    pySortByWeight id [some "abc"] = none := by
  obtain ⟨hp, hpair, hfil⟩ :=
    (c3_stable_sort_by_weight id [some "2", none, some "1"]
      [none, some "1", some "2"]).1 (by decide)
  exact ⟨hp, hpair, hfil 0,
    (c3_stable_sort_by_weight id [some "abc"] []).2.1 (some "abc") (by decide) (by decide)⟩

/-! ## Properties of the classification -/

/-- A child that `iterate_directory` records as a leaf document: a regular
file whose name is not `_index.md` and whose last three characters are
`.md` (src/main.py line 75). -/
def isLeafDoc : FSEntry → Bool
  | .file n _ => decide (n ≠ INDEX_FILENAME ∧ pyLast3 n = MD_EXT.data)
  | .dir _ _ => false

/-- A child that supplies the directory's own metadata (src/main.py
line 73). -/
def isIndexFile : FSEntry → Bool
  | .file n _ => decide (n = INDEX_FILENAME)
  | .dir _ _ => false

theorem classifyLoop_append : ∀ (a b : List FSEntry) (toc : List TocEntry)
    (subs : List SubEntry) (tT tD : Option String),
    classifyLoop (a ++ b) toc subs tT tD =
      (match classifyLoop a toc subs tT tD with
       | none => none
       | some (t, s, x, y) => classifyLoop b t s x y) := by
  intro a
  induction a with
  | nil =>
    intro b toc subs tT tD
    rw [List.nil_append]
    rw [show classifyLoop [] toc subs tT tD = some (toc, subs, tT, tD) from rfl]
  | cons c rest ih =>
    intro b toc subs tT tD
    rw [List.cons_append]
    match c with
    | .dir n ch =>
      rw [classifyLoop]
      conv_rhs => rw [classifyLoop]
      cases hgd : get_dir_header ch with
      | none => rfl
      | some w =>
        obtain ⟨w1, w2, w3⟩ := w
        exact ih b toc (subs ++ [⟨w1, w2, w3, FSEntry.dir n ch⟩]) tT tD
    | .file n fc =>
      rw [classifyLoop]
      conv_rhs => rw [classifyLoop]
      by_cases h1 : n = INDEX_FILENAME
      · rw [if_pos h1, if_pos h1]
        exact ih b toc subs _ _
      · rw [if_neg h1, if_neg h1]
        by_cases h2 : pyLast3 n = MD_EXT.data
        · rw [if_pos h2, if_pos h2]
          exact ih b _ subs tT tD
        · rw [if_neg h2, if_neg h2]
          exact ih b toc subs tT tD

theorem classifyLoop_chars : ∀ (children : List FSEntry) (toc : List TocEntry)
    (subs : List SubEntry) (tT tD : Option String) (toc' : List TocEntry)
    (subs' : List SubEntry) (tT' tD' : Option String),
    classifyLoop children toc subs tT tD = some (toc', subs', tT', tD') →
    subs'.map SubEntry.child = subs.map SubEntry.child ++ children.filter FSEntry.isDir ∧
    toc'.map (fun e => FSEntry.file e.name e.content)
      = toc.map (fun e => FSEntry.file e.name e.content) ++ children.filter isLeafDoc := by
  intro children
  induction children with
  | nil =>
    intro toc subs tT tD toc' subs' tT' tD' h
    simp [classifyLoop] at h
    simp [h.1, h.2.1]
  | cons child rest ih =>
    intro toc subs tT tD toc' subs' tT' tD' h
    match child with
    | .dir n ch =>
      rw [classifyLoop] at h
      cases hgd : get_dir_header ch with
      | none => rw [hgd] at h; exact absurd h (by simp)
      | some w =>
        obtain ⟨w1, w2, w3⟩ := w
        rw [hgd] at h
        obtain ⟨ih1, ih2⟩ := ih _ _ _ _ _ _ _ _ h
        constructor
        · rw [ih1]
          simp [FSEntry.isDir]
        · rw [ih2]
          simp [isLeafDoc]
    | .file n fc =>
      rw [classifyLoop] at h
      by_cases h1 : n = INDEX_FILENAME
      · rw [if_pos h1] at h
        obtain ⟨ih1, ih2⟩ := ih _ _ _ _ _ _ _ _ h
        subst h1
        constructor
        · rw [ih1]; simp [FSEntry.isDir]
        · rw [ih2]; simp [isLeafDoc]
      · rw [if_neg h1] at h
        by_cases h2 : pyLast3 n = MD_EXT.data
        · rw [if_pos h2] at h
          obtain ⟨ih1, ih2⟩ := ih _ _ _ _ _ _ _ _ h
          constructor
          · rw [ih1]; simp [FSEntry.isDir]
          · rw [ih2]
            have hld : isLeafDoc (FSEntry.file n fc) = true := by
              simp [isLeafDoc, h1, h2]
            simp [hld]
        · rw [if_neg h2] at h
          obtain ⟨ih1, ih2⟩ := ih _ _ _ _ _ _ _ _ h
          constructor
          · rw [ih1]; simp [FSEntry.isDir]
          · rw [ih2]
            have hld : isLeafDoc (FSEntry.file n fc) = false := by
              simp [isLeafDoc, h1, h2]
            simp [hld]

theorem classifyLoop_no_index : ∀ (l : List FSEntry),
    (∀ e ∈ l, isIndexFile e = false) →
    ∀ (toc : List TocEntry) (subs : List SubEntry) (tT tD : Option String)
      (toc' : List TocEntry) (subs' : List SubEntry) (tT' tD' : Option String),
      classifyLoop l toc subs tT tD = some (toc', subs', tT', tD') →
      tT' = tT ∧ tD' = tD := by
  intro l
  induction l with
  | nil =>
    intro _ toc subs tT tD toc' subs' tT' tD' h
    simp [classifyLoop] at h
    exact ⟨h.2.2.1.symm, h.2.2.2.symm⟩
  | cons child rest ih =>
    intro hno toc subs tT tD toc' subs' tT' tD' h
    have hrest : ∀ e ∈ rest, isIndexFile e = false :=
      fun e he => hno e (List.mem_cons_of_mem child he)
    match child with
    | .dir n ch =>
      rw [classifyLoop] at h
      cases hgd : get_dir_header ch with
      | none => rw [hgd] at h; exact absurd h (by simp)
      | some w =>
        obtain ⟨w1, w2, w3⟩ := w
        rw [hgd] at h
        exact ih hrest _ _ _ _ _ _ _ _ h
    | .file n fc =>
      have h1 : ¬n = INDEX_FILENAME := by
        have := hno (FSEntry.file n fc) (List.mem_cons_self _ _)
        simpa [isIndexFile] using this
      rw [classifyLoop, if_neg h1] at h
      by_cases h2 : pyLast3 n = MD_EXT.data
      · rw [if_pos h2] at h
        exact ih hrest _ _ _ _ _ _ _ _ h
      · rw [if_neg h2] at h
        exact ih hrest _ _ _ _ _ _ _ _ h

theorem classifyChildren_skip (l1 l2 : List FSEntry) (name content : String)
    (hidx : name ≠ INDEX_FILENAME) (hmd : pyLast3 name ≠ MD_EXT.data) :
    classifyChildren (l1 ++ FSEntry.file name content :: l2)
      = classifyChildren (l1 ++ l2) := by
  unfold classifyChildren
  rw [classifyLoop_append, classifyLoop_append]
  cases h : classifyLoop l1 [] [] none none with
  | none => rfl
  | some r =>
    obtain ⟨t, s, x, y⟩ := r
    show classifyLoop (FSEntry.file name content :: l2) t s x y
      = classifyLoop l2 t s x y
    rw [classifyLoop, if_neg hidx, if_neg hmd]

/-- `iterate_directory` depends on the children only through their
classification. -/
theorem iterate_directory_classify_congr {ch1 ch2 : List FSEntry}
    (nm dirPath : String) (secNum : List Nat) (sep : String) (st : TmpState)
    (h : classifyChildren ch1 = classifyChildren ch2) :
    iterate_directory (FSEntry.dir nm ch1) dirPath secNum sep st
      = iterate_directory (FSEntry.dir nm ch2) dirPath secNum sep st := by
  cases hcl : classifyChildren ch2 with
  | none =>
    rw [iterate_directory_classify_none nm dirPath secNum sep st (h.trans hcl),
        iterate_directory_classify_none nm dirPath secNum sep st hcl]
  | some r =>
    obtain ⟨toc, subs, tT, tD⟩ := r
    have hcl1 : classifyChildren ch1 = some (toc, subs, tT, tD) := h.trans hcl
    cases hst : pySortByWeight TocEntry.weight toc with
    | none =>
      rw [iterate_directory_dir_tocfail nm dirPath secNum sep st hcl1 hst,
          iterate_directory_dir_tocfail nm dirPath secNum sep st hcl hst]
    | some stoc =>
      cases hss : pySortByWeight SubEntry.weight subs with
      | none =>
        have hfail : ∀ (a : List TocEntry) (b : List SubEntry),
            pySortByWeight TocEntry.weight toc = some a →
            pySortByWeight SubEntry.weight subs = some b → False := by
          intro a b _ hb
          rw [hss] at hb
          exact absurd hb (by simp)
        rw [iterate_directory_sorts_fail nm dirPath secNum sep st hcl1 hfail,
            iterate_directory_sorts_fail nm dirPath secNum sep st hcl hfail]
      | some ssubs =>
        rw [iterate_directory_dir nm dirPath secNum sep st hcl1 hst hss,
            iterate_directory_dir nm dirPath secNum sep st hcl hst hss]

/-- C9: child classification tests directory status first and the index
name before the extension — a subdirectory is always recorded as a
subsection (whatever its name), the leaf documents are exactly the non-index
`.md` files, a regular file `_index.md` supplies the directory's own title
and description and is never a leaf document, and a regular file that is
neither produces no fragment, no TOC entry and no error: the walk's result
is unchanged when it is removed. -/
theorem c9_child_classification :
    (∀ (nm name content dirPath : String) (l1 l2 : List FSEntry)
        (secNum : List Nat) (sep : String) (st : TmpState),
        name ≠ INDEX_FILENAME → pyLast3 name ≠ MD_EXT.data →
        iterate_directory (FSEntry.dir nm (l1 ++ FSEntry.file name content :: l2))
            dirPath secNum sep st
          = iterate_directory (FSEntry.dir nm (l1 ++ l2)) dirPath secNum sep st) ∧
    (∀ (ch : List FSEntry) (toc : List TocEntry) (subs : List SubEntry)
        (tT tD : Option String),
        classifyChildren ch = some (toc, subs, tT, tD) →
        subs.map SubEntry.child = ch.filter FSEntry.isDir ∧
        toc.map (fun e => FSEntry.file e.name e.content) = ch.filter isLeafDoc) ∧
    (∀ (l1 l2 : List FSEntry) (c : String) (toc : List TocEntry)
        (subs : List SubEntry) (tT tD : Option String),
        (∀ e ∈ l2, isIndexFile e = false) →
        classifyChildren (l1 ++ FSEntry.file INDEX_FILENAME c :: l2)
          = some (toc, subs, tT, tD) →
        tT = (get_file_header c).2.1 ∧ tD = (get_file_header c).2.2) := by
  refine ⟨?_, ?_, ?_⟩
  · intro nm name content dirPath l1 l2 secNum sep st hidx hmd
    exact iterate_directory_classify_congr nm dirPath secNum sep st
      (classifyChildren_skip l1 l2 name content hidx hmd)
  · intro ch toc subs tT tD hcl
    have := classifyLoop_chars ch [] [] none none toc subs tT tD hcl
    simpa using this
  · intro l1 l2 c toc subs tT tD hno hcl
    unfold classifyChildren at hcl
    rw [classifyLoop_append] at hcl
    cases h1 : classifyLoop l1 [] [] none none with
    | none => rw [h1] at hcl; exact absurd hcl (by simp)
    | some r =>
      obtain ⟨t, s, x, y⟩ := r
      rw [h1] at hcl
      have hcl2 : classifyLoop (FSEntry.file INDEX_FILENAME c :: l2) t s x y
          = some (toc, subs, tT, tD) := hcl
      rw [classifyLoop, if_pos rfl] at hcl2
      obtain ⟨hT, hD⟩ := classifyLoop_no_index l2 hno _ _ _ _ _ _ _ _ hcl2
      exact ⟨hT, hD⟩

/-- Witness for C9 at concrete inputs. -/
theorem c9_child_classification_witness :
    iterate_directory (FSEntry.dir "d"
        (([] : List FSEntry) ++ FSEntry.file "notes.txt" "x" ::
          [FSEntry.file "a.md" "title: A"])) "p" [1] "S" ⟨0, []⟩
      = iterate_directory (FSEntry.dir "d"
        (([] : List FSEntry) ++ [FSEntry.file "a.md" "title: A"])) "p" [1] "S" ⟨0, []⟩ ∧
    ([⟨none, none, none, FSEntry.dir "_index.md" []⟩,
      ⟨none, none, none, FSEntry.dir "sub.md" []⟩] : List SubEntry).map SubEntry.child
      = [FSEntry.dir "_index.md" [], FSEntry.dir "sub.md" [],
         FSEntry.file "_index.md" "title: T", FSEntry.file "a.md" "w",
         FSEntry.file "README" "y"].filter FSEntry.isDir ∧
    ([⟨none, none, none, "a.md", "w"⟩] : List TocEntry).map
        (fun e => FSEntry.file e.name e.content)
      = [FSEntry.dir "_index.md" [], FSEntry.dir "sub.md" [],
         FSEntry.file "_index.md" "title: T", FSEntry.file "a.md" "w",
         FSEntry.file "README" "y"].filter isLeafDoc ∧
    (some "T" : Option String) = (get_file_header "title: T\ndescription: D").2.1 ∧
    (some "D" : Option String) = (get_file_header "title: T\ndescription: D").2.2 := by
  obtain ⟨p1, p2, p3⟩ := c9_child_classification
  have h2 := p2 [FSEntry.dir "_index.md" [], FSEntry.dir "sub.md" [],
      FSEntry.file "_index.md" "title: T", FSEntry.file "a.md" "w",
      FSEntry.file "README" "y"]
    [⟨none, none, none, "a.md", "w"⟩]
    [⟨none, none, none, FSEntry.dir "_index.md" []⟩,
     ⟨none, none, none, FSEntry.dir "sub.md" []⟩]
    (some "T") none (by rfl)
  have h3 := p3 [FSEntry.file "a.md" "w"] [FSEntry.file "b.md" "z"]
    "title: T\ndescription: D"
    [⟨none, none, none, "a.md", "w"⟩, ⟨none, none, none, "b.md", "z"⟩] []
    (some "T") (some "D") (by decide) (by rfl)
  exact ⟨p1 "d" "notes.txt" "x" "p" [] [FSEntry.file "a.md" "title: A"] [1] "S" ⟨0, []⟩
      (by decide) (by decide), h2.1, h2.2, h3.1, h3.2⟩

/-- Packaged form of `iter_state_props_aux` for the subsection loop. -/
theorem iterSubs_state_props {l : List SubEntry} {dirPath : String}
    {secNum : List Nat} {idx : Nat} {sep : String} {st : TmpState}
    {q : List Nat} {st' : TmpState}
    (h : iterSubs l dirPath secNum idx sep st = some (q, st')) :
    st.files <+: st'.files ∧ st.counter ≤ st'.counter ∧
    ∀ i ∈ q, st.counter ≤ i ∧ ∃ c, (i, c) ∈ st'.files :=
  (iter_state_props_aux (subsSize l)).2 l dirPath secNum idx sep st q st'
    (Nat.le_refl _) h

theorem emitDocs_seq_shape (d : String) (sepId : Nat) :
    ∀ (l : List TocEntry) (seq : List Nat) (st : TmpState),
      ∃ t, (emitDocs d sepId l seq st).1 = seq ++ t := by
  intro l
  induction l with
  | nil => intro seq st; exact ⟨[], by simp [emitDocs]⟩
  | cons e rest ih =>
    intro seq st
    rw [emitDocs_cons]
    obtain ⟨t, ht⟩ := ih (seq ++ [st.counter, st.counter + 1, sepId]) _
    exact ⟨[st.counter, st.counter + 1, sepId] ++ t, by rw [ht]; simp⟩

theorem pySortByWeight_singleton {α : Type} {wOf : α → Option String} {x : α}
    {k : Int} (hk : pySortKey (wOf x) = some k) :
    pySortByWeight wOf [x] = some [x] := by
  unfold pySortByWeight
  rw [show List.mapM (fun y => (pySortKey (wOf y)).map (fun kk => (kk, y))) [x]
      = (pySortKey (wOf x)).map (fun kk => [(kk, x)]) from by
    cases hh : pySortKey (wOf x) <;> simp [List.mapM, List.mapM.loop, hh]]
  rw [hk]
  simp [List.insertionSort]

/-- A directory with no leaf documents and no subsections produces exactly
header, `"No content."`, separator. -/
theorem iterate_directory_empty {children : List FSEntry} {tT tD : Option String}
    (dirName dirPath : String) (secNum : List Nat) (sep : String) (st : TmpState)
    (hcl : classifyChildren children = some ([], [], tT, tD)) :
    iterate_directory (FSEntry.dir dirName children) dirPath secNum sep st =
      some ([st.counter + 1, st.counter + 2, st.counter],
        ⟨st.counter + 3, st.files ++
          [(st.counter, sep),
           (st.counter + 1, headerText secNum tT dirName tD),
           (st.counter + 2, "No content.")]⟩) := by
  rw [iterate_directory_dir dirName dirPath secNum sep st hcl
    (show pySortByWeight TocEntry.weight [] = some [] from rfl)
    (show pySortByWeight SubEntry.weight [] = some [] from rfl)]
  rw [iterSubs_nil]
  simp [afterHeaderSeq, afterHeaderState, emitDocs, List.append_assoc]

/-- A directory with exactly one leaf document and no subsections produces
header, TOC, separator, title, body, separator, with one temporary file per
fragment except the separator, whose single file is referenced twice. -/
theorem iterate_directory_single_doc {children : List FSEntry} {e : TocEntry}
    {tT tD : Option String} {k : Int} (dirName dirPath : String)
    (secNum : List Nat) (sep : String) (st : TmpState)
    (hcl : classifyChildren children = some ([e], [], tT, tD))
    (hk : pySortKey e.weight = some k) :
    iterate_directory (FSEntry.dir dirName children) dirPath secNum sep st =
      some ([st.counter + 1, st.counter + 2, st.counter,
             st.counter + 3, st.counter + 4, st.counter],
        ⟨st.counter + 5, st.files ++
          [(st.counter, sep),
           (st.counter + 1, headerText secNum tT dirName tD),
           (st.counter + 2, tocText dirPath [e] []),
           (st.counter + 3, "# " ++ pyOr e.title (childPath dirPath e.name) ++ "\n\n"),
           (st.counter + 4, rewriteLinks dirPath e.content)]⟩) := by
  rw [iterate_directory_dir dirName dirPath secNum sep st hcl
    (pySortByWeight_singleton hk)
    (show pySortByWeight SubEntry.weight [] = some [] from rfl)]
  rw [iterSubs_nil]
  simp [afterHeaderSeq, afterHeaderState, emitDocs, newTmp, List.append_assoc]

/-- C1: for every directory that `iterate_directory` processes successfully,
the "Content" listing file holds exactly one bullet per leaf document plus
one per subsection — documents first, then subsections, each in sorted
order — and it is created (right after the header, followed by the
separator) iff the directory has at least one leaf document or subsection;
when it has neither, the emitted sequence is exactly header, the literal
`"No content."` fragment, and one section separator. -/
theorem c1_content_listing (dirName dirPath : String) (children : List FSEntry)
    (secNum : List Nat) (sep : String) (st : TmpState) (toc : List TocEntry)
    (subs : List SubEntry) (tT tD : Option String) (q : List Nat) (st' : TmpState)
    (hcl : classifyChildren children = some (toc, subs, tT, tD))
    (h : iterate_directory (FSEntry.dir dirName children) dirPath secNum sep st
      = some (q, st')) :
    ∃ stoc ssubs,
      pySortByWeight TocEntry.weight toc = some stoc ∧
      pySortByWeight SubEntry.weight subs = some ssubs ∧
      stoc.Perm toc ∧ ssubs.Perm subs ∧
      ((toc ≠ [] ∨ subs ≠ []) →
        (st.counter + 2, tocText dirPath stoc ssubs) ∈ st'.files ∧
        q.take 3 = [st.counter + 1, st.counter + 2, st.counter] ∧
        tocText dirPath stoc ssubs = "## Content\n\n" ++ String.join
          (stoc.map (fun e => bulletText e.title e.descr (childPath dirPath e.name))
            ++ ssubs.map (fun e => bulletText e.title e.descr (childPath dirPath e.child.fname))) ∧
        (stoc.map (fun e => bulletText e.title e.descr (childPath dirPath e.name))
          ++ ssubs.map (fun e => bulletText e.title e.descr (childPath dirPath e.child.fname))).length
          = toc.length + subs.length) ∧
      ((toc = [] ∧ subs = []) →
        q = [st.counter + 1, st.counter + 2, st.counter] ∧
        st'.files = st.files ++
          [(st.counter, sep),
           (st.counter + 1, headerText secNum tT dirName tD),
           (st.counter + 2, "No content.")]) := by
  cases hst : pySortByWeight TocEntry.weight toc with
  | none =>
    rw [iterate_directory_dir_tocfail dirName dirPath secNum sep st hcl hst] at h
    exact absurd h (by simp)
  | some stoc =>
    cases hss : pySortByWeight SubEntry.weight subs with
    | none =>
      rw [iterate_directory_sorts_fail dirName dirPath secNum sep st hcl
        (fun a b _ hb => by rw [hss] at hb; exact absurd hb (by simp))] at h
      exact absurd h (by simp)
    | some ssubs =>
      have hpt : stoc.Perm toc := (pySortByWeight_spec hst).1
      have hps : ssubs.Perm subs := (pySortByWeight_spec hss).1
      refine ⟨stoc, ssubs, rfl, rfl, hpt, hps, ?_, ?_⟩
      · intro hne
        have hcond : stoc.length > 0 ∨ ssubs.length > 0 := by
          rcases hne with hne | hne
          · left; rw [hpt.length_eq]; exact List.length_pos.2 hne
          · right; rw [hps.length_eq]; exact List.length_pos.2 hne
        have hmem : (st.counter + 2, tocText dirPath stoc ssubs)
            ∈ (afterHeaderState st sep secNum tT dirName tD dirPath stoc ssubs).files := by
          unfold afterHeaderState
          rw [if_pos hcond]
          simp
        rw [iterate_directory_dir dirName dirPath secNum sep st hcl hst hss] at h
        obtain ⟨e1, e2, e3⟩ := emitDocs_props dirPath st.counter stoc
          (afterHeaderSeq st stoc ssubs)
          (afterHeaderState st sep secNum tT dirName tD dirPath stoc ssubs)
        split at h
        · exact absurd h (by simp)
        · next subSeq st5 heq =>
          obtain ⟨m1, m2, m3⟩ := iterSubs_state_props heq
          split at h
          · next hempty =>
            exact absurd hempty (by omega)
          · next hnonempty =>
            have hpair := Option.some.inj h
            have hq : (emitDocs dirPath st.counter stoc (afterHeaderSeq st stoc ssubs)
                (afterHeaderState st sep secNum tT dirName tD dirPath stoc ssubs)).1
                ++ subSeq = q := congrArg Prod.fst hpair
            have hst5 : st5 = st' := congrArg Prod.snd hpair
            subst hst5
            refine ⟨(e2.trans m1).subset hmem, ?_, rfl, ?_⟩
            · obtain ⟨t, ht⟩ := emitDocs_seq_shape dirPath st.counter stoc
                (afterHeaderSeq st stoc ssubs)
                (afterHeaderState st sep secNum tT dirName tD dirPath stoc ssubs)
              have hseq : afterHeaderSeq st stoc ssubs
                  = [st.counter + 1, st.counter + 2, st.counter] := by
                unfold afterHeaderSeq
                rw [if_pos hcond]
              rw [← hq, ht, hseq, List.append_assoc]
              exact List.take_left' rfl
            · simp [hpt.length_eq, hps.length_eq]
      · rintro ⟨ht, hs⟩
        subst ht hs
        have hstoc : stoc = [] := by
          rw [show pySortByWeight TocEntry.weight [] = some ([] : List TocEntry) from rfl] at hst
          exact (Option.some.inj hst).symm
        have hssubs : ssubs = [] := by
          rw [show pySortByWeight SubEntry.weight [] = some ([] : List SubEntry) from rfl] at hss
          exact (Option.some.inj hss).symm
        subst hstoc hssubs
        rw [iterate_directory_empty dirName dirPath secNum sep st hcl] at h
        have hpair := Option.some.inj h
        exact ⟨(congrArg Prod.fst hpair).symm,
          (congrArg TmpState.files (congrArg Prod.snd hpair)).symm⟩

/-- Witness for C1 at concrete inputs (one directory with a single document,
one with none). -/
theorem c1_content_listing_witness :
    (∃ stoc ssubs,
      pySortByWeight TocEntry.weight [⟨none, some "A", none, "a.md", "title: A"⟩] = some stoc ∧
      pySortByWeight SubEntry.weight [] = some ssubs ∧
      stoc.Perm [⟨none, some "A", none, "a.md", "title: A"⟩] ∧ ssubs.Perm [] ∧
      (([⟨none, some "A", none, "a.md", "title: A"⟩] : List TocEntry) ≠ [] ∨ ([] : List SubEntry) ≠ [] →
        (2, tocText "p" stoc ssubs) ∈ (⟨5, [(0, "S"), (1, headerText [1] none "d" none),
            (2, tocText "p" [⟨none, some "A", none, "a.md", "title: A"⟩] []),
            (3, "# A\n\n"), (4, rewriteLinks "p" "title: A")]⟩ : TmpState).files ∧
        ([1, 2, 0, 3, 4, 0] : List Nat).take 3 = [1, 2, 0] ∧
        tocText "p" stoc ssubs = "## Content\n\n" ++ String.join
          (stoc.map (fun e => bulletText e.title e.descr (childPath "p" e.name))
            ++ ssubs.map (fun e => bulletText e.title e.descr (childPath "p" e.child.fname))) ∧
        (stoc.map (fun e => bulletText e.title e.descr (childPath "p" e.name))
          ++ ssubs.map (fun e => bulletText e.title e.descr (childPath "p" e.child.fname))).length
          = 1 + 0) ∧
      (([⟨none, some "A", none, "a.md", "title: A"⟩] : List TocEntry) = [] ∧ ([] : List SubEntry) = [] →
        ([1, 2, 0, 3, 4, 0] : List Nat) = [1, 2, 0] ∧
        (⟨5, [(0, "S"), (1, headerText [1] none "d" none),
            (2, tocText "p" [⟨none, some "A", none, "a.md", "title: A"⟩] []),
            (3, "# A\n\n"), (4, rewriteLinks "p" "title: A")]⟩ : TmpState).files =
          [] ++ [(0, "S"), (1, headerText [1] none "d" none), (2, "No content.")])) := by
  refine c1_content_listing "d" "p" [FSEntry.file "a.md" "title: A"] [1] "S" ⟨0, []⟩
    [⟨none, some "A", none, "a.md", "title: A"⟩] [] none none [1, 2, 0, 3, 4, 0] _
    (by rfl) ?_
  rw [iterate_directory_single_doc "d" "p" [1] "S" ⟨0, []⟩
    (show classifyChildren [FSEntry.file "a.md" "title: A"]
      = some ([⟨none, some "A", none, "a.md", "title: A"⟩], [], none, none) from rfl)
    (show pySortKey (none : Option String) = some 0 from rfl)]
  rfl

/-- C8 (as stated) is refuted: a directory with a single leaf document emits
six fragments (header, TOC, separator, title, body, separator) but creates
only five temporary files — the separator file is created once per directory
(src/main.py lines 81-83) and its path recurs in the returned list, so the
list is not one fresh file per emitted fragment. -/
theorem c8_counterexample :
    iterate_directory (FSEntry.dir "d" [FSEntry.file "a.md" "title: A"])
        "p" [1] "S" ⟨0, []⟩
      = some ([1, 2, 0, 3, 4, 0],
        ⟨5, [(0, "S"), (1, headerText [1] none "d" none),
             (2, tocText "p" [⟨none, some "A", none, "a.md", "title: A"⟩] []),
             (3, "# A\n\n"), (4, rewriteLinks "p" "title: A")]⟩) ∧
    ([1, 2, 0, 3, 4, 0] : List Nat).length = 6 ∧
    ([(0, "S"), (1, headerText [1] none "d" none),
      (2, tocText "p" [⟨none, some "A", none, "a.md", "title: A"⟩] []),
      (3, "# A\n\n"), (4, rewriteLinks "p" "title: A")] : List (Nat × String)).length = 5 ∧
    ¬ ([1, 2, 0, 3, 4, 0] : List Nat).Nodup := by
  refine ⟨?_, rfl, rfl, by decide⟩
  rw [iterate_directory_single_doc "d" "p" [1] "S" ⟨0, []⟩
    (show classifyChildren [FSEntry.file "a.md" "title: A"]
      = some ([⟨none, some "A", none, "a.md", "title: A"⟩], [], none, none) from rfl)
    (show pySortKey (none : Option String) = some 0 from rfl)]
  rfl

/-- C8 amended: the pre-render walk creates a fresh temporary file in the
scratch store for the header, the Content listing, each document title, each
document body and the `"No content."` placeholder, and one single separator
file per directory whose path recurs at every separator position; the
returned list holds the created files' paths in emission order — every
returned path is a created file at or above the call's starting counter, and
the scratch store only ever grows. -/
theorem c8_fragment_files :
    (∀ (e : FSEntry) (dirPath : String) (secNum : List Nat) (sep : String)
        (st : TmpState) (q : List Nat) (st' : TmpState),
        iterate_directory e dirPath secNum sep st = some (q, st') →
        st.files <+: st'.files ∧
        ∀ i ∈ q, st.counter ≤ i ∧ ∃ c, (i, c) ∈ st'.files) ∧
    (∀ (dirName dirPath : String) (secNum : List Nat) (sep : String)
        (st : TmpState) (children : List FSEntry) (e : TocEntry)
        (tT tD : Option String) (k : Int),
        classifyChildren children = some ([e], [], tT, tD) →
        pySortKey e.weight = some k →
        iterate_directory (FSEntry.dir dirName children) dirPath secNum sep st =
          some ([st.counter + 1, st.counter + 2, st.counter,
                 st.counter + 3, st.counter + 4, st.counter],
            ⟨st.counter + 5, st.files ++
              [(st.counter, sep),
               (st.counter + 1, headerText secNum tT dirName tD),
               (st.counter + 2, tocText dirPath [e] []),
               (st.counter + 3, "# " ++ pyOr e.title (childPath dirPath e.name) ++ "\n\n"),
               (st.counter + 4, rewriteLinks dirPath e.content)]⟩)) := by
  constructor
  · intro e dirPath secNum sep st q st' h
    obtain ⟨h1, _, h3⟩ := iter_state_props h
    exact ⟨h1, h3⟩
  · intro dirName dirPath secNum sep st children e tT tD k hcl hk
    exact iterate_directory_single_doc dirName dirPath secNum sep st hcl hk

/-- Witness for the amended C8 at a concrete input. -/
theorem c8_fragment_files_witness :
    (([] : List (Nat × String)) <+:
      [(0, "S2"), (1, headerText [2] none "e" none), (2, "No content.")] ∧
      ∀ i ∈ ([1, 2, 0] : List Nat), 0 ≤ i ∧
        ∃ c, (i, c) ∈ [(0, "S2"), (1, headerText [2] none "e" none), (2, "No content.")]) ∧
    iterate_directory (FSEntry.dir "e" [FSEntry.file "b.md" "title: B"])
        "pp" [2] "T" ⟨0, []⟩
      = some ([1, 2, 0, 3, 4, 0],
        ⟨5, [(0, "T"), (1, headerText [2] none "e" none),
             (2, tocText "pp" [⟨none, some "B", none, "b.md", "title: B"⟩] []),
             (3, "# B\n\n"), (4, rewriteLinks "pp" "title: B")]⟩) := by
  constructor
  · refine c8_fragment_files.1 (FSEntry.dir "e" []) "pp" [2] "S2" ⟨0, []⟩ [1, 2, 0]
      ⟨3, [(0, "S2"), (1, headerText [2] none "e" none), (2, "No content.")]⟩ ?_
    exact iterate_directory_empty "e" "pp" [2] "S2" ⟨0, []⟩ rfl
  · exact c8_fragment_files.2 "e" "pp" [2] "T" ⟨0, []⟩ [FSEntry.file "b.md" "title: B"]
      ⟨none, some "B", none, "b.md", "title: B"⟩ none none 0 (by rfl) rfl

/-! ## Section-number properties -/

/-- The root call of `__main__` (src/main.py line 145): assemble the whole
tree from the source root with section number `(1,)`, an empty scratch
store, and `SECTION_SEPARATOR`. -/
def main_filepath_list (root : FSEntry) (rootPath : String) :
    Option (List Nat × TmpState) :=
  iterate_directory root rootPath [1] SECTION_SEPARATOR ⟨0, []⟩

theorem iterSubsNums_nil (sn : List Nat) (idx : Nat) :
    iterSubsNums [] sn idx = some [] := by
  rw [iterSubsNums]

theorem iterSubsNums_cons (s : SubEntry) (rest : List SubEntry) (sn : List Nat)
    (idx : Nat) :
    iterSubsNums (s :: rest) sn idx =
      (match assembledSecNums s.child (sn ++ [idx]) with
       | none => none
       | some ns =>
         match iterSubsNums rest sn (idx + 1) with
         | none => none
         | some ms => some (ns ++ ms)) := by
  rw [iterSubsNums]

/-- Every number in a successful `iterSubsNums`/`assembledSecNums` result is
anchored: the list-level result's members start with `sn ++ [i]` for some
`i ≥ idx`, and a directory's result contains its own number, has no
duplicates, and every member extends the directory's number, with every
non-root member being its parent's number plus one positive component. -/
theorem secnums_shape_aux : ∀ N : Nat,
    (∀ (e : FSEntry) (sn : List Nat) (ns : List (List Nat)), e.esize ≤ N →
      assembledSecNums e sn = some ns →
      sn ∈ ns ∧ ns.Nodup ∧ (∀ m ∈ ns, sn <+: m) ∧
      (∀ m ∈ ns, m ≠ sn → ∃ par i, par ∈ ns ∧ m = par ++ [i] ∧ 1 ≤ i)) ∧
    (∀ (l : List SubEntry) (sn : List Nat) (idx : Nat) (ms : List (List Nat)),
      subsSize l ≤ N →
      iterSubsNums l sn idx = some ms →
      ms.Nodup ∧
      (∀ m ∈ ms, ∃ i, idx ≤ i ∧ m.take (sn.length + 1) = sn ++ [i]) ∧
      (∀ m ∈ ms, (∃ i, idx ≤ i ∧ m = sn ++ [i]) ∨
        (∃ par i, par ∈ ms ∧ m = par ++ [i] ∧ 1 ≤ i))) := by
  intro N
  induction N with
  | zero =>
    constructor
    · intro e sn ns hsz _
      have := esize_pos e
      omega
    · intro l sn idx ms hsz h
      have hl : l = [] := subsSize_zero hsz
      subst hl
      rw [iterSubsNums_nil] at h
      have hms : ([] : List (List Nat)) = ms := Option.some.inj h
      subst hms
      refine ⟨List.nodup_nil, ?_, ?_⟩ <;> intro m hm <;> exact absurd hm (List.not_mem_nil m)
  | succ N ih =>
    obtain ⟨ih1, ih2⟩ := ih
    have take_mem_facts : ∀ (sn : List Nat) (i : Nat) (m : List Nat),
        m.take (sn.length + 1) = sn ++ [i] →
        (sn ++ [i]) <+: m ∧ sn.length + 1 ≤ m.length := by
      intro sn i m htake
      constructor
      · exact ⟨m.drop (sn.length + 1), by rw [← htake]; exact List.take_append_drop _ m⟩
      · have hlen := congrArg List.length htake
        simp [List.length_take] at hlen
        omega
    constructor
    · intro e sn ns hsz h
      match e with
      | .file n c => rw [assembledSecNums] at h; exact absurd h (by simp)
      | .dir dirName children =>
        rw [assembledSecNums] at h
        split at h
        · exact absurd h (by simp)
        · next toc subs tT tD heqcl =>
          split at h
          · next stoc ssubs hst hss =>
            split at h
            · exact absurd h (by simp)
            · next ms hms =>
              have hns : sn :: ms = ns := Option.some.inj h
              subst hns
              have hsubsz : subsSize ssubs ≤ N := by
                have := subdirs_size_lt dirName heqcl hss
                have he : (FSEntry.dir dirName children).esize ≤ N + 1 := hsz
                omega
              obtain ⟨d1, d2, d3⟩ := ih2 ssubs sn 1 ms hsubsz hms
              have hsn_not_mem : sn ∉ ms := by
                intro hmem
                obtain ⟨i, _, htake⟩ := d2 sn hmem
                have := (take_mem_facts sn i sn htake).2
                omega
              refine ⟨List.mem_cons_self _ _, List.nodup_cons.2 ⟨hsn_not_mem, d1⟩, ?_, ?_⟩
              · intro m hm
                rcases List.mem_cons.1 hm with hm | hm
                · subst hm; exact List.prefix_refl _
                · obtain ⟨i, _, htake⟩ := d2 m hm
                  exact (List.prefix_append sn [i]).trans (take_mem_facts sn i m htake).1
              · intro m hm hne
                have hm2 : m ∈ ms := by
                  rcases List.mem_cons.1 hm with hm | hm
                  · exact absurd hm hne
                  · exact hm
                rcases d3 m hm2 with ⟨i, hi1, hi2⟩ | ⟨par, i, hp1, hp2, hp3⟩
                · exact ⟨sn, i, List.mem_cons_self _ _, hi2, hi1⟩
                · exact ⟨par, i, List.mem_cons_of_mem _ hp1, hp2, hp3⟩
          · exact absurd h (by simp)
    · intro l sn idx ms hsz h
      match l with
      | [] =>
        rw [iterSubsNums_nil] at h
        have hms : ([] : List (List Nat)) = ms := Option.some.inj h
        subst hms
        refine ⟨List.nodup_nil, ?_, ?_⟩ <;> intro m hm <;> exact absurd hm (List.not_mem_nil m)
      | s :: rest =>
        rw [iterSubsNums_cons] at h
        have hsesz : s.child.esize ≤ N ∧ subsSize rest ≤ N := by
          rw [subsSize_cons] at hsz
          have := esize_pos s.child
          constructor <;> omega
        cases hrec : assembledSecNums s.child (sn ++ [idx]) with
        | none => rw [hrec] at h; exact absurd h (by simp)
        | some ns =>
          rw [hrec] at h
          have h2 : (match iterSubsNums rest sn (idx + 1) with
              | none => none
              | some ms2 => some (ns ++ ms2)) = some ms := h
          cases hrest : iterSubsNums rest sn (idx + 1) with
          | none => rw [hrest] at h2; exact absurd h2 (by simp)
          | some ms2 =>
            rw [hrest] at h2
            have hms : ns ++ ms2 = ms := Option.some.inj h2
            subst hms
            obtain ⟨c1, c2, c3, c4⟩ := ih1 s.child (sn ++ [idx]) ns hsesz.1 hrec
            obtain ⟨d1, d2, d3⟩ := ih2 rest sn (idx + 1) ms2 hsesz.2 hrest
            have hns_take : ∀ m ∈ ns, m.take (sn.length + 1) = sn ++ [idx] := by
              intro m hm
              have hpre : (sn ++ [idx]) <+: m := c3 m hm
              have heq := List.prefix_iff_eq_take.1 hpre
              have hlen : (sn ++ [idx]).length = sn.length + 1 := by simp
              rw [hlen] at heq
              exact heq.symm
            have hdisj : List.Disjoint ns ms2 := by
              intro a ha1 ha2
              have h1 := hns_take a ha1
              obtain ⟨i, hi, h2⟩ := d2 a ha2
              rw [h1] at h2
              have : idx = i := by
                have := List.append_cancel_left h2
                simpa using this
              omega
            refine ⟨c2.append d1 hdisj, ?_, ?_⟩
            · intro m hm
              rcases List.mem_append.1 hm with hm | hm
              · exact ⟨idx, Nat.le_refl _, hns_take m hm⟩
              · obtain ⟨i, hi, h2⟩ := d2 m hm
                exact ⟨i, by omega, h2⟩
            · intro m hm
              rcases List.mem_append.1 hm with hm | hm
              · by_cases hme : m = sn ++ [idx]
                · exact Or.inl ⟨idx, Nat.le_refl _, hme⟩
                · obtain ⟨par, i, hp1, hp2, hp3⟩ := c4 m hm hme
                  exact Or.inr ⟨par, i, List.mem_append_left _ hp1, hp2, hp3⟩
              · rcases d3 m hm with ⟨i, hi1, hi2⟩ | ⟨par, i, hp1, hp2, hp3⟩
                · exact Or.inl ⟨i, by omega, hi2⟩
                · exact Or.inr ⟨par, i, List.mem_append_right _ hp1, hp2, hp3⟩

/-- The k-th child rule: an `iterSubsNums` run splits into one block per
subsection; block `j` (0-based) is the recursive walk of child `j` with the
parent number extended by `idx + j`. -/
theorem iterSubsNums_kth (l : List SubEntry) :
    ∀ (sn : List Nat) (idx : Nat) (ms : List (List Nat)),
      iterSubsNums l sn idx = some ms →
      ∃ msl : List (List (List Nat)), ms = msl.flatten ∧ msl.length = l.length ∧
        ∀ j, (hj : j < l.length) → (hj2 : j < msl.length) →
          assembledSecNums (l.get ⟨j, hj⟩).child (sn ++ [idx + j]) =
            some (msl.get ⟨j, hj2⟩) := by
  induction l with
  | nil =>
    intro sn idx ms h
    rw [iterSubsNums_nil] at h
    have hms : ([] : List (List Nat)) = ms := Option.some.inj h
    subst hms
    exact ⟨[], rfl, rfl, fun j hj _ => absurd hj (by simp)⟩
  | cons s rest ih =>
    intro sn idx ms h
    rw [iterSubsNums_cons] at h
    cases hrec : assembledSecNums s.child (sn ++ [idx]) with
    | none => rw [hrec] at h; exact absurd h (by simp)
    | some ns =>
      rw [hrec] at h
      have h2 : (match iterSubsNums rest sn (idx + 1) with
          | none => none
          | some ms2 => some (ns ++ ms2)) = some ms := h
      cases hrest : iterSubsNums rest sn (idx + 1) with
      | none => rw [hrest] at h2; exact absurd h2 (by simp)
      | some ms2 =>
        rw [hrest] at h2
        have hms : ns ++ ms2 = ms := Option.some.inj h2
        subst hms
        obtain ⟨msl, e1, e2, e3⟩ := ih sn (idx + 1) ms2 hrest
        refine ⟨ns :: msl, by simp [e1], by simp [e2], ?_⟩
        intro j hj hj2
        match j with
        | 0 => simpa using hrec
        | j' + 1 =>
          have hj' : j' < rest.length := by simpa using hj
          have hj2' : j' < msl.length := by simpa using hj2
          have h4 := e3 j' hj' hj2'
          have harith : idx + 1 + j' = idx + (j' + 1) := by omega
          rw [harith] at h4
          simpa using h4

/-- Whenever the walk itself succeeds, the section-number projection also
succeeds: `assembledSecNums`/`iterSubsNums` follow exactly the
classification, sorting and recursion pattern of
`iterate_directory`/`iterSubs`. -/
theorem secnums_transfer_aux : ∀ N : Nat,
    (∀ (e : FSEntry) (dirPath : String) (sn : List Nat) (sep : String)
        (st : TmpState) (res : List Nat × TmpState), e.esize ≤ N →
      iterate_directory e dirPath sn sep st = some res →
      (assembledSecNums e sn).isSome) ∧
    (∀ (l : List SubEntry) (dirPath : String) (sn : List Nat) (idx : Nat)
        (sep : String) (st : TmpState) (res : List Nat × TmpState),
      subsSize l ≤ N →
      iterSubs l dirPath sn idx sep st = some res →
      (iterSubsNums l sn idx).isSome) := by
  intro N
  induction N with
  | zero =>
    constructor
    · intro e _ _ _ _ _ hsz _
      have := esize_pos e
      omega
    · intro l _ sn idx _ _ _ hsz _
      have hl : l = [] := subsSize_zero hsz
      subst hl
      rw [iterSubsNums_nil]
      rfl
  | succ N ih =>
    obtain ⟨ih1, ih2⟩ := ih
    constructor
    · intro e dirPath sn sep st res hsz h
      match e with
      | .file n c => rw [iterate_directory_file] at h; exact absurd h (by simp)
      | .dir dirName children =>
        cases hcl : classifyChildren children with
        | none =>
          rw [iterate_directory_classify_none dirName dirPath sn sep st hcl] at h
          exact absurd h (by simp)
        | some r =>
          obtain ⟨toc, subs, tT, tD⟩ := r
          cases hst : pySortByWeight TocEntry.weight toc with
          | none =>
            rw [iterate_directory_dir_tocfail dirName dirPath sn sep st hcl hst] at h
            exact absurd h (by simp)
          | some stoc =>
            cases hss : pySortByWeight SubEntry.weight subs with
            | none =>
              rw [iterate_directory_sorts_fail dirName dirPath sn sep st hcl
                (fun stoc2 ssubs2 h1 h2 => by rw [hss] at h2; exact absurd h2 (by simp))] at h
              exact absurd h (by simp)
            | some ssubs =>
              rw [iterate_directory_dir dirName dirPath sn sep st hcl hst hss] at h
              cases hsub : iterSubs ssubs dirPath sn 1 sep
                  (emitDocs dirPath st.counter stoc (afterHeaderSeq st stoc ssubs)
                    (afterHeaderState st sep sn tT dirName tD dirPath stoc ssubs)).2 with
              | none => rw [hsub] at h; exact absurd h (by simp)
              | some res2 =>
                have hsubsz : subsSize ssubs ≤ N := by
                  have := subdirs_size_lt dirName hcl hss
                  have he : (FSEntry.dir dirName children).esize ≤ N + 1 := hsz
                  omega
                have hnums := ih2 ssubs dirPath sn 1 sep _ res2 hsubsz hsub
                rw [assembledSecNums_dir dirName sn hcl hst hss]
                cases hnn : iterSubsNums ssubs sn 1 with
                | none => rw [hnn] at hnums; exact absurd hnums (by simp)
                | some ms => rfl
    · intro l dirPath sn idx sep st res hsz h
      match l with
      | [] => rw [iterSubsNums_nil]; rfl
      | s :: rest =>
        rw [iterSubs_cons] at h
        have hsesz : s.child.esize ≤ N ∧ subsSize rest ≤ N := by
          rw [subsSize_cons] at hsz
          have := esize_pos s.child
          constructor <;> omega
        cases hrec : iterate_directory s.child (childPath dirPath s.child.fname)
            (sn ++ [idx]) sep st with
        | none => rw [hrec] at h; exact absurd h (by simp)
        | some p =>
          rw [hrec] at h
          obtain ⟨q, st'⟩ := p
          have h2 : (match iterSubs rest dirPath sn (idx + 1) sep st' with
              | none => none
              | some (q2, stb) => some (q ++ q2, stb)) = some res := h
          cases hrest : iterSubs rest dirPath sn (idx + 1) sep st' with
          | none => rw [hrest] at h2; exact absurd h2 (by simp)
          | some r2 =>
            have hns := ih1 s.child (childPath dirPath s.child.fname) (sn ++ [idx])
              sep st (q, st') hsesz.1 hrec
            have hms := ih2 rest dirPath sn (idx + 1) sep st' r2 hsesz.2 hrest
            rw [iterSubsNums_cons]
            cases hn1 : assembledSecNums s.child (sn ++ [idx]) with
            | none => rw [hn1] at hns; exact absurd hns (by simp)
            | some ns =>
              cases hn2 : iterSubsNums rest sn (idx + 1) with
              | none => rw [hn2] at hms; exact absurd hms (by simp)
              | some ms2 => rfl

/-- C2: the root call of the program assembles with section number `[1]`
(src/main.py line 145); whenever the walk of a tree succeeds, the set of
section numbers visited (`assembledSecNums`) exists and contains the root's
number, has no duplicates (uniqueness across the whole assembled tree),
every visited number extends the root's number, and every non-root number is
some visited parent's number with exactly one component `i ≥ 1` appended;
moreover for a directory the visited numbers are its own number followed by
one block per subsection in sorted order, block `j` (0-based) being the walk
of subsection `j` with the parent number extended by `1 + j` — the appended
components start at 1 and increment by 1 per sibling, independently of the
weights, which only determined the sorted order. -/
theorem c2_section_numbering (root e : FSEntry) (rootPath dirPath sep : String)
    (sn : List Nat) (st : TmpState) (res : List Nat × TmpState)
    (h : iterate_directory e dirPath sn sep st = some res) :
    main_filepath_list root rootPath =
      iterate_directory root rootPath [1] SECTION_SEPARATOR ⟨0, []⟩ ∧
    ∃ ns, assembledSecNums e sn = some ns ∧
      sn ∈ ns ∧ ns.Nodup ∧ (∀ m ∈ ns, sn <+: m) ∧
      (∀ m ∈ ns, m ≠ sn → ∃ par i, par ∈ ns ∧ m = par ++ [i] ∧ 1 ≤ i) ∧
      (∀ (dirName : String) (children : List FSEntry) (toc : List TocEntry)
          (subs : List SubEntry) (tT tD : Option String) (stoc : List TocEntry)
          (ssubs : List SubEntry),
        e = FSEntry.dir dirName children →
        classifyChildren children = some (toc, subs, tT, tD) →
        pySortByWeight TocEntry.weight toc = some stoc →
        pySortByWeight SubEntry.weight subs = some ssubs →
        ∃ msl : List (List (List Nat)),
          ns = sn :: msl.flatten ∧ msl.length = ssubs.length ∧
          ∀ j, (hj : j < ssubs.length) → (hj2 : j < msl.length) →
            assembledSecNums (ssubs.get ⟨j, hj⟩).child (sn ++ [1 + j]) =
              some (msl.get ⟨j, hj2⟩)) := by
  refine ⟨rfl, ?_⟩
  have htr := (secnums_transfer_aux e.esize).1 e dirPath sn sep st res
    (Nat.le_refl _) h
  cases hns : assembledSecNums e sn with
  | none => rw [hns] at htr; exact absurd htr (by simp)
  | some ns =>
    obtain ⟨s1, s2, s3, s4⟩ := (secnums_shape_aux e.esize).1 e sn ns
      (Nat.le_refl _) hns
    refine ⟨ns, rfl, s1, s2, s3, s4, ?_⟩
    intro dirName children toc subs tT tD stoc ssubs he hcl hst hss
    subst he
    rw [assembledSecNums_dir dirName sn hcl hst hss] at hns
    cases hnn : iterSubsNums ssubs sn 1 with
    | none => rw [hnn] at hns; exact absurd hns (by simp)
    | some ms =>
      rw [hnn] at hns
      have hcons : sn :: ms = ns := Option.some.inj hns
      obtain ⟨msl, e1, e2, e3⟩ := iterSubsNums_kth ssubs sn 1 ms hnn
      exact ⟨msl, by rw [← hcons, e1], e2, e3⟩

/-- Witness for the section-numbering theorem: a concrete run on an empty
directory named `r`. -/
theorem c2_section_numbering_witness :
    iterate_directory (FSEntry.dir "r" []) "d" [1] SECTION_SEPARATOR ⟨0, []⟩ =
      some ([1, 2, 0],
        ⟨3, [(0, SECTION_SEPARATOR), (1, headerText [1] none "r" none),
             (2, "No content.")]⟩) ∧
    (main_filepath_list (FSEntry.dir "r" []) "d" =
       iterate_directory (FSEntry.dir "r" []) "d" [1] SECTION_SEPARATOR ⟨0, []⟩ ∧
     ∃ ns, assembledSecNums (FSEntry.dir "r" []) [1] = some ns ∧
       [1] ∈ ns ∧ ns.Nodup ∧ (∀ m ∈ ns, [1] <+: m) ∧
       (∀ m ∈ ns, m ≠ [1] → ∃ par i, par ∈ ns ∧ m = par ++ [i] ∧ 1 ≤ i) ∧
       (∀ (dirName : String) (children : List FSEntry) (toc : List TocEntry)
           (subs : List SubEntry) (tT tD : Option String) (stoc : List TocEntry)
           (ssubs : List SubEntry),
         FSEntry.dir "r" [] = FSEntry.dir dirName children →
         classifyChildren children = some (toc, subs, tT, tD) →
         pySortByWeight TocEntry.weight toc = some stoc →
         pySortByWeight SubEntry.weight subs = some ssubs →
         ∃ msl : List (List (List Nat)),
           ns = [1] :: msl.flatten ∧ msl.length = ssubs.length ∧
           ∀ j, (hj : j < ssubs.length) → (hj2 : j < msl.length) →
             assembledSecNums (ssubs.get ⟨j, hj⟩).child ([1] ++ [1 + j]) =
               some (msl.get ⟨j, hj2⟩))) := by
  have hrun : iterate_directory (FSEntry.dir "r" []) "d" [1] SECTION_SEPARATOR
      ⟨0, []⟩ =
      some ([1, 2, 0],
        ⟨3, [(0, SECTION_SEPARATOR), (1, headerText [1] none "r" none),
             (2, "No content.")]⟩) := by
    rw [iterate_directory_empty "r" "d" [1] SECTION_SEPARATOR ⟨0, []⟩
      (show classifyChildren [] = some ([], [], none, none) from rfl)]
    rfl
  exact ⟨hrun,
    c2_section_numbering (FSEntry.dir "r" []) (FSEntry.dir "r" []) "d" "d"
      SECTION_SEPARATOR [1] ⟨0, []⟩ _ hrun⟩
